import Mathlib

/-!
# Verification of the git-tree branch reconstruction engine

Shallow embedding of `git_tree.py` (and the parts of `utils/git.py` it
relies on).  Python's mutable `Commit` objects become an inductive rose
tree, the generator `bfs_segments` becomes a queue-based recursion, the
stateful flows (`process_update`, `rebase_with_root`,
`rebase_without_root`, `update_local_struct`) become functions producing
an explicit trace of backend (`git`) calls together with an optional
error, and every backend query is supplied by an explicit oracle
structure.  Python exceptions are modelled with `Except`/`Option`
error results.
-/

namespace GitTree

/-- One commit node of the in-memory tree built by `build_tree`
(dataclass `Commit` in `git_tree.py`): full hash, subject, branch
labels pointing at this commit, merge-commit flag, and the list of
child commits. -/
inductive Commit where
  | node (full_hash : String) (subject : String) (refs : List String)
      (is_merger : Bool) (children : List Commit)

def Commit.full_hash : Commit → String
  | .node h _ _ _ _ => h

def Commit.subject : Commit → String
  | .node _ s _ _ _ => s

def Commit.refs : Commit → List String
  | .node _ _ r _ _ => r

def Commit.is_merger : Commit → Bool
  | .node _ _ _ m _ => m

def Commit.children : Commit → List Commit
  | .node _ _ _ _ cs => cs

/-- `Commit.first_ref`: `next(iter(self.refs), None)`. -/
def Commit.first_ref (c : Commit) : Option String :=
  c.refs.head?

mutual

/-- `Commit.all_nodes`: preorder traversal (`__find_descendant` with an
always-true check yields the node itself and then recursively each
child's subtree). -/
def Commit.all_nodes : Commit → List Commit
  | .node h s r m cs => .node h s r m cs :: allNodesList cs

def allNodesList : List Commit → List Commit
  | [] => []
  | c :: cs => c.all_nodes ++ allNodesList cs

end

/-- The message of the exception raised by `verify_tree` for a merge
commit: `"Commit %s is a merge. " % c.full_hash + "Merge commits are
not supported."`. -/
def mergeErrorMsg (h : String) : String :=
  "Commit " ++ h ++ " is a merge. Merge commits are not supported."

/-- Insertion of a string into a sorted list (ordered by Lean's
lexicographic `≤` on strings, which like Python's `sorted` compares
code points). -/
def insertSorted (s : String) : List String → List String
  | [] => [s]
  | t :: ts => if s ≤ t then s :: t :: ts else t :: insertSorted s ts

/-- `sorted(refs)` of Python: sort a list of strings. -/
def sortStrings : List String → List String
  | [] => []
  | s :: ss => insertSorted s (sortStrings ss)

/-- The message of the exception raised by `verify_tree` for a commit
with more than one reference, with the references sorted and
comma-joined. -/
def multiRefErrorMsg (h : String) (refs : List String) : String :=
  "Commit " ++ h ++ " has references [" ++
    String.intercalate "," (sortStrings refs) ++
    "]. Commits with multiple references are not supported."

/-- The loop of `verify_tree` over `root.all_nodes()`: per node the
merge check comes first, then the multiple-references check; the first
failing node raises. -/
def verifyNodes : List Commit → Except String Unit
  | [] => .ok ()
  | c :: cs =>
    if c.is_merger then .error (mergeErrorMsg c.full_hash)
    else if c.refs.length > 1 then .error (multiRefErrorMsg c.full_hash c.refs)
    else verifyNodes cs

/-- `verify_tree` from `git_tree.py`: traverse every node and raise on
a merge commit or a multi-labeled commit; silent success otherwise. -/
def verify_tree (root : Commit) : Except String Unit :=
  verifyNodes root.all_nodes

/-- A concrete tree whose single child node is a merge commit. -/
def mergeTreeExample : Commit :=
  .node "r0" "root" [] false [.node "m1" "merge" [] true []]

/-- A linear replayable run of history (dataclass `Segment`).  In
Python all four fields are annotated `str`, but at the one emission
site that copies `root.first_ref()` the start ref can actually be
`None` (unlabeled root), so `start_ref` is modelled as `Option String`.
The end ref is guarded truthy at both emission sites, hence always a
string. -/
structure Segment where
  start_ref : Option String
  start_full_hash : String
  end_ref : String
  end_full_hash : String
deriving DecidableEq, Repr

/-- Python truthiness of an `Optional[str]`: `None` and `""` are
falsy. -/
def refTruthy : Option String → Bool
  | none => false
  | some s => s != ""

/-- A queue entry of `bfs_segments`: the tree node plus the "currently
open" segment start inherited from the nearest labeled ancestor.  In
Python `seg_start_hash` is annotated `Optional[str]` but both
constructors (`Entry.root`, `Entry.child`) always store a string, so it
is modelled as `String`. -/
structure Entry where
  commit : Commit
  seg_start_ref : Option String
  seg_start_hash : String

/-- `Entry.root`: the root entry opens a segment at the root's own
first label (possibly `None`) and hash. -/
def Entry.root (commit : Commit) : Entry :=
  ⟨commit, commit.first_ref, commit.full_hash⟩

/-- `Entry.child`: a labeled child opens a new segment at its own first
label and hash; an unlabeled child inherits the parent entry's open
start unchanged (`if commit.refs: ... else: ...`). -/
def Entry.child (commit : Commit) (par : Entry) : Entry :=
  if commit.refs.isEmpty then ⟨commit, par.seg_start_ref, par.seg_start_hash⟩
  else ⟨commit, commit.first_ref, commit.full_hash⟩

/-- The per-edge yield decision in the body of `bfs_segments`'s
`while queue` loop, for one child `c` of the popped entry `par` with
`newEntry = Entry.child c par`:

* first guard (`if`): both the new and the parent entry's open start
  refs are truthy and differ — emit a segment from the parent's open
  start to the new entry's start;
* second guard (`elif`): the new entry's start ref is truthy and the
  parent's open start hash equals the processing root's hash — emit a
  segment from the root's first label (possibly `None`) and hash. -/
def childEmit (rootRef : Option String) (rootHash : String) (par newEntry : Entry) :
    Option Segment :=
  match newEntry.seg_start_ref with
  | none => none
  | some neRef =>
    if neRef != "" && refTruthy par.seg_start_ref && (some neRef != par.seg_start_ref) then
      some ⟨par.seg_start_ref, par.seg_start_hash, neRef, newEntry.seg_start_hash⟩
    else if neRef != "" && (par.seg_start_hash == rootHash) then
      some ⟨rootRef, rootHash, neRef, newEntry.seg_start_hash⟩
    else none

mutual

/-- Number of nodes of a commit tree (termination measure for the
breadth-first traversal). -/
def Commit.csize : Commit → Nat
  | .node _ _ _ _ cs => 1 + csizeList cs

def csizeList : List Commit → Nat
  | [] => 0
  | c :: cs => c.csize + csizeList cs

end

def queueSize (q : List Entry) : Nat :=
  (q.map fun e => e.commit.csize).sum

theorem Entry.child_commit (c : Commit) (par : Entry) : (Entry.child c par).commit = c := by
  unfold Entry.child
  split <;> rfl

theorem csizeList_eq_sum (cs : List Commit) :
    csizeList cs = (cs.map Commit.csize).sum := by
  induction cs with
  | nil => rfl
  | cons c cs ih => simp [csizeList, ih]

theorem csizeList_lt_csize (c : Commit) : csizeList c.children < c.csize := by
  cases c with
  | node h s r m cs => simp [Commit.csize, Commit.children]

theorem csize_pos (c : Commit) : 0 < c.csize := by
  cases c with
  | node h s r m cs => simp [Commit.csize]

theorem queueSize_step (par : Entry) (rest : List Entry) :
    queueSize (rest ++ par.commit.children.map fun c => Entry.child c par) <
      queueSize (par :: rest) := by
  simp only [queueSize, List.map_append, List.sum_append, List.map_cons, List.sum_cons,
    List.map_map]
  have h1 : (par.commit.children.map
      ((fun e => e.commit.csize) ∘ fun c => Entry.child c par)).sum =
      csizeList par.commit.children := by
    rw [csizeList_eq_sum]
    congr 1
    apply List.map_congr_left
    intro c _
    simp [Function.comp, Entry.child_commit]
  rw [h1]
  have := csizeList_lt_csize par.commit
  omega

/-- The `while queue` loop of `bfs_segments`: pop the head entry, and
for each of its children (in order) append the child entry to the queue
and possibly yield one segment. -/
def bfsLoop (rootRef : Option String) (rootHash : String) (queue : List Entry) :
    List Segment :=
  match queue with
  | [] => []
  | par :: rest =>
    (par.commit.children.filterMap fun c =>
      childEmit rootRef rootHash par (Entry.child c par)) ++
    bfsLoop rootRef rootHash (rest ++ par.commit.children.map fun c => Entry.child c par)
termination_by queueSize queue
decreasing_by
  exact queueSize_step par rest

/-- `bfs_segments` from `git_tree.py`: breadth-first traversal of the
tree extracting segments, seeded with the root entry. -/
def bfs_segments (root : Commit) : List Segment :=
  bfsLoop root.first_ref root.full_hash [Entry.root root]

/-- The same traversal as `bfsLoop`, additionally recording for every
processed parent/child edge the pair of commits and the (optional)
segment yielded on that edge. -/
def bfsEdgesLoop (rootRef : Option String) (rootHash : String) (queue : List Entry) :
    List (Commit × Commit × Option Segment) :=
  match queue with
  | [] => []
  | par :: rest =>
    (par.commit.children.map fun c =>
      (par.commit, c, childEmit rootRef rootHash par (Entry.child c par))) ++
    bfsEdgesLoop rootRef rootHash (rest ++ par.commit.children.map fun c => Entry.child c par)
termination_by queueSize queue
decreasing_by
  exact queueSize_step par rest

/-- Edge-instrumented form of `bfs_segments`. -/
def bfs_edges (root : Commit) : List (Commit × Commit × Option Segment) :=
  bfsEdgesLoop root.first_ref root.full_hash [Entry.root root]

/-- Reachability along the tree's parent→child edges (reflexive
transitive closure of "is a child of"). -/
inductive Reach : Commit → Commit → Prop where
  | refl (c : Commit) : Reach c c
  | step {a b c : Commit} : Reach a b → c ∈ b.children → Reach a c

/-- `e` is a strict descendant of `s`: reachable from `s` via at least
one parent→child edge. -/
def StrictDesc (s e : Commit) : Prop :=
  ∃ m, Reach s m ∧ e ∈ m.children

/-- Queue invariant for the descendant property: the entry's open
start hash is the hash of some tree node from which the entry's commit
is reachable. -/
def EntryInv (root : Commit) (e : Entry) : Prop :=
  ∃ s, Reach root s ∧ s.full_hash = e.seg_start_hash ∧ Reach s e.commit

/-- A verified tree (labeled root, one unlabeled child) on which
`bfs_segments` emits a segment whose end commit is the start commit
itself. -/
def labeledRootTree : Commit :=
  .node "r" "" ["A"] false [.node "c" "" [] false []]

/-- A two-node chain with both nodes labeled. -/
def twoLabelChain : Commit :=
  .node "hA" "" ["A"] false [.node "hB" "" ["B"] false []]

/-- The degenerate segment repeatedly emitted below a labeled root. -/
def degSegA : Segment := ⟨some "A", "hA", "A", "hA"⟩

/-- The one real segment of the chain family. -/
def realSegAC : Segment := ⟨some "A", "hA", "C", "hC"⟩

/-- A chain of `n` unlabeled commits ending in the labeled commit
`C`. -/
def unlabeledChain : Nat → Commit
  | 0 => .node "hC" "" ["C"] false []
  | n + 1 => .node ("hu" ++ toString (n + 1)) "" [] false [unlabeledChain n]

/-- The chain `A → u_n → … → u_1 → C`: labeled commit `A` followed by
`n` unlabeled commits and then labeled commit `C`. -/
def labeledChain (n : Nat) : Commit :=
  .node "hA" "" ["A"] false [unlabeledChain n]

/-- The chain `A → u1 → u2` under a labeled root carries two
consecutive unlabeled nodes. -/
def labeledRootChain2 : Commit :=
  .node "r" "" ["A"] false
    [.node "u1" "" [] false [.node "u2" "" [] false []]]

mutual

/-- No node of the tree carries the empty string as a label. -/
def noEmptyRefs : Commit → Bool
  | .node _ _ r _ cs => r.all (fun s => s != "") && noEmptyRefsList cs

def noEmptyRefsList : List Commit → Bool
  | [] => true
  | c :: cs => noEmptyRefs c && noEmptyRefsList cs

end

/-- Queue invariant for dependency order: the entry's open start label
is nonempty; if absent, the open start hash is the root's; and if
present, the label is either the root's first label or the end label of
a segment already emitted (collected in `acc`). -/
def SegInv (rr : Option String) (rh : String) (acc : List Segment) (e : Entry) : Prop :=
  noEmptyRefs e.commit = true ∧
  (e.seg_start_ref = none → e.seg_start_hash = rh) ∧
  (∀ s, e.seg_start_ref = some s → s ≠ "" ∧
    (some s = rr ∨ ∃ sg ∈ acc, sg.end_ref = s))

/-- Dependency order of a segment list relative to already-emitted
segments `acc`: read left to right, every segment starts at the root's
label or at the end label of an earlier segment. -/
def DepChain (rr : Option String) : List Segment → List Segment → Prop
  | _, [] => True
  | acc, s :: rest =>
    (s.start_ref = rr ∨ ∃ sg ∈ acc, some sg.end_ref = s.start_ref) ∧
    DepChain rr (acc ++ [s]) rest

/-- A verified tree one of whose labels is the empty string:
`R("R") → e("") → c("X") → g("Y")`. -/
def emptyLabelTree : Commit :=
  .node "hR" "" ["R"] false
    [.node "he" "" [""] false
      [.node "hc" "" ["X"] false
        [.node "hg" "" ["Y"] false []]]]

/-- One parsed line of `git log` (dataclass `GitLog` of
`utils/git.py`). -/
structure GitLog where
  full_hash : String
  subject : String
  parent_hashes : List String
  refs : List String
deriving DecidableEq, Repr

/-- A Python `dict` with string keys, modelled as an association list
in insertion order: setting an existing key keeps its position,
setting a new key appends. -/
abbrev PyDict (α : Type) : Type := List (String × α)

/-- `d[k]` as an option (`None` instead of `KeyError`). -/
def dictGet? {α : Type} (d : PyDict α) (k : String) : Option α :=
  (List.find? (fun p => p.1 == k) d).map (fun p => p.2)

/-- `k in d`. -/
def dictContains {α : Type} (d : PyDict α) (k : String) : Bool :=
  d.any (fun p => p.1 == k)

/-- `d[k] = v`. -/
def dictSet {α : Type} (d : PyDict α) (k : String) (v : α) : PyDict α :=
  if dictContains d k then d.map (fun p => if p.1 == k then (p.1, v) else p)
  else d ++ [(k, v)]

/-- In-place mutation of the value stored under `k` (no-op when the
key is absent; every Python call site has the key present). -/
def dictUpdate {α : Type} (d : PyDict α) (k : String) (f : α → α) : PyDict α :=
  d.map (fun p => if p.1 == k then (p.1, f p.2) else p)

/-- Outcome oracle for one `git cherry-pick` invocation: success, or a
`CalledProcessError` together with what the subsequent
`git status --porcelain=v1` queries observe — whether the working tree
has conflicting files right after the failure, and then, for each poll
iteration of `wait_for_conflict_resolution`, the pair (does the tree
still have conflicting files, elapsed whole seconds since the wait
started). -/
inductive PickResult where
  | ok
  | fail (hasConflicts : Bool) (polls : List (Bool × Nat))
deriving DecidableEq, Repr

/-- The source-control backend (the `git` subprocess wrappers of
`utils/git.py`), supplied as a deterministic oracle. -/
structure GitBackend where
  /-- `git_remote()`: name of the first remote, if any. -/
  remote : Option String
  /-- `git_ref_hash(reference)`. -/
  ref_hash : String → String
  /-- `git_common_ancestor(*commits)`. -/
  common_ancestor : List String → String
  /-- `git_log_commit(commitish)` (parent hashes included; the one
  call site passes `skip_parent_hashes=True` and drops them). -/
  log_commit : String → GitLog
  /-- `git_log_range(start, end)`: commits in `start..end`, newest
  first. -/
  log_range : String → String → List GitLog
  /-- `git_branch_exists(name, remote=False)`. -/
  branch_exists : String → Bool
  /-- Outcome of `git_cherrypick(commit)` plus the ensuing
  working-tree status observations. -/
  cherrypick : String → PickResult

/-- One backend (`git`) call, as recorded in a flow's trace.  The
read-only status polls of `has_conflicting_files` and the
`git_branch_exists` probes of the name provider are not traced. -/
inductive GitCall where
  | remote
  | ref_hash (r : String)
  | common_ancestor (rs : List String)
  | log_commit (r : String)
  | log_range (a b : String)
  | checkout (r : String)
  | branch (name start : String)
  | cherrypick (h : String)
  | delete_branch (r : String)
  | rename_branch (a b : String)
deriving DecidableEq, Repr

/-- Backend calls that mutate the local repository: `git checkout`,
`git checkout -b`, `git cherry-pick`, `git branch -D`,
`git branch -m`. -/
def GitCall.isMutation : GitCall → Bool
  | .checkout _ => true
  | .branch _ _ => true
  | .cherrypick _ => true
  | .delete_branch _ => true
  | .rename_branch _ _ => true
  | _ => false

def GitCall.isDelete : GitCall → Bool
  | .delete_branch _ => true
  | _ => false

def GitCall.isRename : GitCall → Bool
  | .rename_branch _ _ => true
  | _ => false

def GitCall.isBranchCreate : GitCall → Bool
  | .branch _ _ => true
  | _ => false

/-- The commit hash cherry-picked by a call, if it is a cherry-pick. -/
def pickTarget : GitCall → Option String
  | .cherrypick h => some h
  | _ => none

/-- Errors of the replay phase. `cherrypickFailed` is the re-raised
`CalledProcessError` of a cherry-pick; `conflictTimeout` is
`RuntimeError("Conflict not resolved in time", base_error)`;
`noneStartRef` is the `TypeError` Python's `check_call` raises when
`git_branch` receives `None` as start ref (before any `git` process
runs); `tempNamesExhausted` marks exhaustion of the bounded
temporary-name search (the Python loop would spin forever). -/
inductive ReplayErr where
  | cherrypickFailed (commit : String)
  | conflictTimeout (msg : String) (base : ReplayErr)
  | noneStartRef
  | tempNamesExhausted
deriving DecidableEq, Repr

/-- `wait_for_conflict_resolution(timeout_secs, base_error)`: while
`has_conflicting_files()`, raise once strictly more than
`timeout_secs` seconds have elapsed, else sleep 0.1s and poll again.
The finite `polls` list supplies the successive observations
(conflicting?, elapsed seconds); exhausting the list stands for a poll
observing a clean tree. -/
def wait_for_conflict_resolution (timeout_secs : Nat) (base_error : ReplayErr) :
    List (Bool × Nat) → Except ReplayErr Unit
  | [] => .ok ()
  | (conflicting, elapsed) :: rest =>
    if conflicting then
      if elapsed > timeout_secs then
        .error (.conflictTimeout "Conflict not resolved in time" base_error)
      else
        wait_for_conflict_resolution timeout_secs base_error rest
    else .ok ()

/-- The `try/except CalledProcessError` body around one
`git_cherrypick(commit)` call in `git_cherrypick_range`: on failure,
re-raise unless `has_conflicting_files()`, else block in
`wait_for_conflict_resolution`. -/
def cherrypick_step (timeout_secs : Nat) (commit : String) :
    PickResult → Except ReplayErr Unit
  | .ok => .ok ()
  | .fail hasConflicts polls =>
    if !hasConflicts then .error (.cherrypickFailed commit)
    else wait_for_conflict_resolution timeout_secs (.cherrypickFailed commit) polls

/-- The `for commit in reversed(commits)` loop of
`git_cherrypick_range`: cherry-pick each commit in turn, stopping at
the first fatal error. -/
def cherrypickList (backend : GitBackend) (timeout_secs : Nat) :
    List String → List GitCall × Option ReplayErr
  | [] => ([], none)
  | commit :: rest =>
    match cherrypick_step timeout_secs commit (backend.cherrypick commit) with
    | .ok () =>
      let r := cherrypickList backend timeout_secs rest
      (.cherrypick commit :: r.1, r.2)
    | .error e => ([.cherrypick commit], some e)

/-- `git_cherrypick_range(segment, conflict_resolution_timeout_secs)`:
list the commit hashes of `git_log_range(segment.start_full_hash,
segment.end_ref)` (newest first) and cherry-pick them in reversed,
oldest-first order. -/
def git_cherrypick_range (backend : GitBackend) (segment : Segment)
    (conflict_resolution_timeout_secs : Nat) : List GitCall × Option ReplayErr :=
  let commits := (backend.log_range segment.start_full_hash segment.end_ref).map
    (fun log => log.full_hash)
  let r := cherrypickList backend conflict_resolution_timeout_secs commits.reverse
  (.log_range segment.start_full_hash segment.end_ref :: r.1, r.2)

/-- The `while True` search loop of the closure returned by
`create_temp_branch_name_provider`: probe `<old_name>-tmp-<i>`,
incrementing the shared counter past names of existing local branches.
`fuel` bounds the search (the Python loop never terminates if every
probed name exists); the result is the found name together with the
closure's `ref_index` after the call (a successful probe does not
increment the counter). -/
def temp_branch_name_provider (git_branch_exists : String → Bool) (old_name : String) :
    Nat → Nat → Option (String × Nat)
  | 0, _ => none
  | fuel + 1, ref_index =>
    let name := old_name ++ "-tmp-" ++ toString ref_index
    if git_branch_exists name then
      temp_branch_name_provider git_branch_exists old_name fuel (ref_index + 1)
    else
      some (name, ref_index)

/-- `qualify_branch(branch, remote)` from `utils/git.py` (a falsy —
absent or empty — remote leaves the name unqualified). -/
def qualify_branch (branch : String) (remote : Option String) : String :=
  match remote with
  | some r => if r == "" then branch else r ++ "/" ++ branch
  | none => branch

/-- Errors surfacing from `build_tree`: an uncaught `KeyError` from a
`dict` lookup, or (unreachable for the acyclic inputs `git log`
produces) exhaustion of the reification fuel. -/
inductive BuildErr where
  | keyError (key : String)
  | reifyFuel (h : String)
deriving DecidableEq, Repr

/-- Intermediate record of the `commits` dict of `build_tree`: a
`Commit` under construction, with children kept as hashes because the
Python code mutates shared `Commit` objects in place. -/
structure CommitRec where
  full_hash : String
  subject : String
  refs : List String
  is_merger : Bool
  child_hashes : List String
deriving DecidableEq, Repr

/-- First loop of `build_tree`: attach a branch name to the ancestor
entry for every branch whose tip hash equals the ancestor. -/
def assignAncestorRefs (backend : GitBackend) (ancestor : String) :
    List (String × String) → PyDict GitLog → PyDict GitLog
  | [], m => m
  | (name, branch) :: rest, m =>
    let m' := if backend.ref_hash branch == ancestor then
        dictUpdate m ancestor (fun log => { log with refs := log.refs ++ [name] })
      else m
    assignAncestorRefs backend ancestor rest m'

/-- Inner loop of `build_tree`'s second loop: add each log of a range
to the map unless its hash is already a key. -/
def addRangeLogs : List GitLog → PyDict GitLog → PyDict GitLog
  | [], m => m
  | details :: rest, m =>
    let m' := if dictContains m details.full_hash then m
      else m ++ [(details.full_hash, details)]
    addRangeLogs rest m'

/-- Second loop of `build_tree`: for every branch, pull the range
`ancestor..branch`, deduplicate the logs into the map, and attach the
branch name to the first (tip-most) entry of a non-empty range. -/
def collectRanges (backend : GitBackend) (ancestor : String) :
    List (String × String) → PyDict GitLog → PyDict GitLog
  | [], m => m
  | (name, branch) :: rest, m =>
    let range := backend.log_range ancestor branch
    let m' := addRangeLogs range m
    let m'' := match range with
      | [] => m'
      | first :: _ =>
        dictUpdate m' first.full_hash (fun log => { log with refs := log.refs ++ [name] })
    collectRanges backend ancestor rest m''

/-- The `hash_to_log_map` of `build_tree` after both label-assignment
loops: seeded with the ancestor's own log (`skip_parent_hashes=True`
drops its parents), keyed by the `ancestor` argument. -/
def hash_to_log_map (backend : GitBackend) (ancestor : String)
    (branches branch_names : List String) : PyDict GitLog :=
  -- `if not branch_names: branch_names = branches` (`None` and `[]` are falsy)
  let names := if branch_names.isEmpty then branches else branch_names
  let ancLog0 := backend.log_commit ancestor
  let ancLog : GitLog := { ancLog0 with parent_hashes := [] }
  let m0 : PyDict GitLog := [(ancestor, ancLog)]
  let m1 := assignAncestorRefs backend ancestor (names.zip branches) m0
  collectRanges backend ancestor (names.zip branches) m1

/-- The values of `hash_to_log_map`, in insertion order. -/
def buildLogs (backend : GitBackend) (ancestor : String)
    (branches branch_names : List String) : List GitLog :=
  (hash_to_log_map backend ancestor branches branch_names).map (fun p => p.2)

/-- `commits = {d.full_hash: Commit.from_log(d) for d in
hash_to_log_map.values()}`. -/
def initCommitRecs : List GitLog → PyDict CommitRec → PyDict CommitRec
  | [], m => m
  | d :: rest, m =>
    initCommitRecs rest (dictSet m d.full_hash ⟨d.full_hash, d.subject, d.refs, false, []⟩)

/-- The inner `for p in c.parent_hashes` loop: `commits[p]` (a
`KeyError` when absent), then append the child to the parent's child
list. -/
def linkParentHashes (childHash : String) :
    List String → PyDict CommitRec → Except BuildErr (PyDict CommitRec)
  | [], m => .ok m
  | p :: ps, m =>
    match dictGet? m p with
    | none => .error (.keyError p)
    | some _ =>
      linkParentHashes childHash ps
        (dictUpdate m p (fun r => { r with child_hashes := r.child_hashes ++ [childHash] }))

/-- The hierarchy-inversion loop of `build_tree`: for every log, flag
the commit as a merger when it has more than one parent, and append it
as a child of each of its parents. -/
def linkParents : List GitLog → PyDict CommitRec → Except BuildErr (PyDict CommitRec)
  | [], m => .ok m
  | c :: rest, m =>
    match dictGet? m c.full_hash with
    | none => .error (.keyError c.full_hash)
    | some _ =>
      let m1 := if c.parent_hashes.length > 1 then
          dictUpdate m c.full_hash (fun r => { r with is_merger := true })
        else m
      match linkParentHashes c.full_hash c.parent_hashes m1 with
      | .error e => .error e
      | .ok m2 => linkParents rest m2

/-- Materialize the `Commit` tree rooted at `h` from the record map
(Python returns the shared mutable object graph; the model rebuilds
the value with bounded fuel, which suffices for the acyclic graphs
`git log` yields). -/
def reify (m : PyDict CommitRec) : Nat → String → Except BuildErr Commit
  | 0, h => .error (.reifyFuel h)
  | fuel + 1, h =>
    match dictGet? m h with
    | none => .error (.keyError h)
    | some r =>
      match r.child_hashes.mapM (reify m fuel) with
      | .error e => .error e
      | .ok cs => .ok (.node r.full_hash r.subject r.refs r.is_merger cs)

/-- `build_tree(ancestor, branches, branch_names=None)` from
`git_tree.py`, with `dict` lookups that can raise surfacing as
`BuildErr.keyError`. -/
def build_tree (backend : GitBackend) (ancestor : String) (branches : List String)
    (branch_names : List String) : Except BuildErr Commit :=
  let m2 := hash_to_log_map backend ancestor branches branch_names
  let logs := m2.map (fun p => p.2)
  let recs0 := initCommitRecs logs []
  match linkParents logs recs0 with
  | .error e => .error e
  | .ok recs => reify recs (recs.length + 1) ancestor

/-- The backend calls `build_tree` issues, in order: the ancestor's
log, one `git_ref_hash` per branch, one `git_log_range` per branch —
all read-only. -/
def build_tree_calls (backend : GitBackend) (ancestor : String)
    (branches branch_names : List String) : List GitCall :=
  let names := if branch_names.isEmpty then branches else branch_names
  .log_commit ancestor ::
    ((names.zip branches).map (fun nb => GitCall.ref_hash nb.2) ++
      (names.zip branches).map (fun nb => GitCall.log_range ancestor nb.2))

/-- Mutable state of one reconstruction run: the
`old_to_new_name_map` dict and the name provider's shared
`ref_index` counter. -/
structure ReplayState where
  old_to_new_name_map : PyDict String
  ref_index : Nat
deriving DecidableEq, Repr

/-- The `for segment in bfs_segments(...)` loop of
`update_local_struct`.  Per segment: if the end label already has a
temporary name, check it out; otherwise allocate a temporary name,
resolve the start point through the name map, record the mapping, and
create the branch (`git_branch(new_ref, start_ref)`; a `None` start
ref makes `check_call` raise before any `git` process runs); then
replay the segment with `git_cherrypick_range`. -/
def update_segments (backend : GitBackend) (timeout_secs fuel : Nat) :
    List Segment → ReplayState → List GitCall × ReplayState × Option ReplayErr
  | [], st => ([], st, none)
  | segment :: rest, st =>
    let old_ref := segment.end_ref
    match dictGet? st.old_to_new_name_map old_ref with
    | some mapped =>
      let r := git_cherrypick_range backend segment timeout_secs
      match r.2 with
      | some e => (.checkout mapped :: r.1, st, some e)
      | none =>
        let rec' := update_segments backend timeout_secs fuel rest st
        (.checkout mapped :: r.1 ++ rec'.1, rec'.2)
    | none =>
      match temp_branch_name_provider backend.branch_exists old_ref fuel st.ref_index with
      | none => ([], st, some .tempNamesExhausted)
      | some (new_ref, idx) =>
        let start_ref : Option String := match segment.start_ref with
          | some s =>
            match dictGet? st.old_to_new_name_map s with
            | some mappedStart => some mappedStart
            | none => some s
          | none => none
        let st1 : ReplayState := ⟨dictSet st.old_to_new_name_map old_ref new_ref, idx⟩
        match start_ref with
        | none => ([], st1, some .noneStartRef)
        | some sr =>
          let r := git_cherrypick_range backend segment timeout_secs
          match r.2 with
          | some e => (.branch new_ref sr :: r.1, st1, some e)
          | none =>
            let rec' := update_segments backend timeout_secs fuel rest st1
            (.branch new_ref sr :: r.1 ++ rec'.1, rec'.2)

/-- The identical segment loop of `rebase_with_root` and
`rebase_without_root`: as `update_segments`, except that a segment
starting exactly at the processed tree's root hash starts from the
designated base branch. -/
def rebase_segments (backend : GitBackend) (timeout_secs fuel : Nat)
    (root_full_hash base_branch : String) :
    List Segment → ReplayState → List GitCall × ReplayState × Option ReplayErr
  | [], st => ([], st, none)
  | segment :: rest, st =>
    let old_ref := segment.end_ref
    match dictGet? st.old_to_new_name_map old_ref with
    | some mapped =>
      let r := git_cherrypick_range backend segment timeout_secs
      match r.2 with
      | some e => (.checkout mapped :: r.1, st, some e)
      | none =>
        let rec' := rebase_segments backend timeout_secs fuel root_full_hash base_branch rest st
        (.checkout mapped :: r.1 ++ rec'.1, rec'.2)
    | none =>
      match temp_branch_name_provider backend.branch_exists old_ref fuel st.ref_index with
      | none => ([], st, some .tempNamesExhausted)
      | some (new_ref, idx) =>
        let start_ref : Option String :=
          if segment.start_full_hash == root_full_hash then some base_branch
          else match segment.start_ref with
            | some s =>
              match dictGet? st.old_to_new_name_map s with
              | some mappedStart => some mappedStart
              | none => some s
            | none => none
        let st1 : ReplayState := ⟨dictSet st.old_to_new_name_map old_ref new_ref, idx⟩
        match start_ref with
        | none => ([], st1, some .noneStartRef)
        | some sr =>
          let r := git_cherrypick_range backend segment timeout_secs
          match r.2 with
          | some e => (.branch new_ref sr :: r.1, st1, some e)
          | none =>
            let rec' := rebase_segments backend timeout_secs fuel root_full_hash base_branch rest st1
            (.branch new_ref sr :: r.1 ++ rec'.1, rec'.2)

/-- The finishing swap shared by all flows: delete every original
(old) branch name, then rename every temporary branch to its original
name. -/
def finishRenames (st : ReplayState) : List GitCall :=
  st.old_to_new_name_map.map (fun p => GitCall.delete_branch p.1) ++
    st.old_to_new_name_map.map (fun p => GitCall.rename_branch p.2 p.1)

/-- `update_local_struct(required_tree, temp_ref_name_provider,
conflict_resolution_timeout_secs)`: replay all segments, then delete
all old names, then rename all temporaries. -/
def update_local_struct (backend : GitBackend) (required_tree : Commit)
    (timeout_secs fuel : Nat) : List GitCall × Option ReplayErr :=
  let r := update_segments backend timeout_secs fuel (bfs_segments required_tree) ⟨[], 0⟩
  match r.2.2 with
  | some e => (r.1, some e)
  | none => (r.1 ++ finishRenames r.2.1, none)

/-- A fatal error of one flow. -/
inductive FlowErr where
  | buildErr (e : BuildErr)
  | verifyErr (msg : String)
  | replayErr (e : ReplayErr)
deriving DecidableEq, Repr

/-- `process_update(branches, conflict_resolution_timeout)` from
`git_tree.py`: qualify the remote branches, find the common ancestor,
build and verify the remote tree, build and verify the local tree,
reconstruct the local structure from the remote tree, and rebuild the
local tree for the final debug print. -/
def process_update (backend : GitBackend) (branches : List String)
    (timeout_secs fuel : Nat) : List GitCall × Option FlowErr :=
  let remote := backend.remote
  let remote_branches := branches.map (fun b => qualify_branch b remote)
  let ancestor := backend.common_ancestor (branches ++ remote_branches)
  let tr0 : List GitCall := [.remote, .common_ancestor (branches ++ remote_branches)]
  let tr1 := build_tree_calls backend ancestor remote_branches branches
  match build_tree backend ancestor remote_branches branches with
  | .error e => (tr0 ++ tr1, some (.buildErr e))
  | .ok remote_tree =>
    match verify_tree remote_tree with
    | .error m => (tr0 ++ tr1, some (.verifyErr m))
    | .ok () =>
      let tr2 := build_tree_calls backend ancestor branches []
      match build_tree backend ancestor branches [] with
      | .error e => (tr0 ++ tr1 ++ tr2, some (.buildErr e))
      | .ok local_tree =>
        match verify_tree local_tree with
        | .error m => (tr0 ++ tr1 ++ tr2, some (.verifyErr m))
        | .ok () =>
          match update_local_struct backend remote_tree timeout_secs fuel with
          | (tr3, some e) => (tr0 ++ tr1 ++ tr2 ++ tr3, some (.replayErr e))
          | (tr3, none) =>
            let tr4 := build_tree_calls backend ancestor branches []
            match build_tree backend ancestor branches [] with
            | .error e => (tr0 ++ tr1 ++ tr2 ++ tr3 ++ tr4, some (.buildErr e))
            | .ok _ => (tr0 ++ tr1 ++ tr2 ++ tr3 ++ tr4, none)

/-- `rebase_with_root(branches, base_branch, ...)`: ancestor over the
branches and the base, build and verify the local tree, replay its
segments with the root segment reattached to the base branch, swap
names, and (when `debug_tree`) rebuild for the final debug print. -/
def rebase_with_root (backend : GitBackend) (branches : List String)
    (base_branch : String) (timeout_secs fuel : Nat) (debug_tree : Bool) :
    List GitCall × Option FlowErr :=
  let branch_ancestor := backend.common_ancestor (branches ++ [base_branch])
  let tr0 : List GitCall := [.common_ancestor (branches ++ [base_branch])]
  let tr1 := build_tree_calls backend branch_ancestor branches []
  match build_tree backend branch_ancestor branches [] with
  | .error e => (tr0 ++ tr1, some (.buildErr e))
  | .ok local_tree =>
    match verify_tree local_tree with
    | .error m => (tr0 ++ tr1, some (.verifyErr m))
    | .ok () =>
      let r := rebase_segments backend timeout_secs fuel local_tree.full_hash base_branch
        (bfs_segments local_tree) ⟨[], 0⟩
      match r.2.2 with
      | some e => (tr0 ++ tr1 ++ r.1, some (.replayErr e))
      | none =>
        let tr2 := r.1 ++ finishRenames r.2.1
        if debug_tree then
          let tr3 := build_tree_calls backend branch_ancestor branches []
          match build_tree backend branch_ancestor branches [] with
          | .error e => (tr0 ++ tr1 ++ tr2 ++ tr3, some (.buildErr e))
          | .ok _ => (tr0 ++ tr1 ++ tr2 ++ tr3, none)
        else (tr0 ++ tr1 ++ tr2, none)

/-- `rebase_without_root(branches, base_branch, ...)`: ancestor over
the branches only, build and verify the local tree, a debug rebuild
including the base, replay with root reattachment, swap names, and a
final debug rebuild. -/
def rebase_without_root (backend : GitBackend) (branches : List String)
    (base_branch : String) (timeout_secs fuel : Nat) (debug_tree : Bool) :
    List GitCall × Option FlowErr :=
  let branch_ancestor := backend.common_ancestor branches
  let tr0 : List GitCall := [.common_ancestor branches]
  let tr1 := build_tree_calls backend branch_ancestor branches []
  match build_tree backend branch_ancestor branches [] with
  | .error e => (tr0 ++ tr1, some (.buildErr e))
  | .ok local_tree =>
    match verify_tree local_tree with
    | .error m => (tr0 ++ tr1, some (.verifyErr m))
    | .ok () =>
      let dbg_anc := backend.common_ancestor (branches ++ [base_branch])
      let trd : List GitCall :=
        if debug_tree then
          .common_ancestor (branches ++ [base_branch]) ::
            build_tree_calls backend dbg_anc (branches ++ [base_branch]) []
        else []
      match (if debug_tree then
          (build_tree backend dbg_anc (branches ++ [base_branch]) []).map (fun _ => ())
        else .ok ()) with
      | .error e => (tr0 ++ tr1 ++ trd, some (.buildErr e))
      | .ok () =>
        let r := rebase_segments backend timeout_secs fuel local_tree.full_hash base_branch
          (bfs_segments local_tree) ⟨[], 0⟩
        match r.2.2 with
        | some e => (tr0 ++ tr1 ++ trd ++ r.1, some (.replayErr e))
        | none =>
          let tr2 := r.1 ++ finishRenames r.2.1
          if debug_tree then
            let tr3 := .common_ancestor (branches ++ [base_branch]) ::
              build_tree_calls backend dbg_anc (branches ++ [base_branch]) []
            match build_tree backend dbg_anc (branches ++ [base_branch]) [] with
            | .error e => (tr0 ++ tr1 ++ trd ++ tr2 ++ tr3, some (.buildErr e))
            | .ok _ => (tr0 ++ tr1 ++ trd ++ tr2 ++ tr3, none)
          else (tr0 ++ tr1 ++ trd ++ tr2, none)

/-- A backend on which every cherry-pick succeeds and the one queried
range holds two commits, newest first. -/
def okBackend : GitBackend where
  remote := none
  ref_hash := fun _ => ""
  common_ancestor := fun _ => ""
  log_commit := fun h => ⟨h, "", [], []⟩
  log_range := fun _ _ => [⟨"c2", "", ["c1"], []⟩, ⟨"c1", "", ["anc"], []⟩]
  branch_exists := fun _ => false
  cherrypick := fun _ => .ok

def seg0 : Segment := ⟨some "A", "anc", "B", "c2"⟩

/-- A backend whose queried range contains a merge commit `m` whose
second parent `outside` lies outside the queried range (its history
left the range), as happens for a branch containing a merge whose
other parent is not an ancestor of the branch within `anc..b`. -/
def mergeBackend : GitBackend where
  remote := none
  ref_hash := fun _ => "tip"
  common_ancestor := fun _ => "anc"
  log_commit := fun h => ⟨h, "root", [], []⟩
  log_range := fun _ _ => [⟨"m", "merge", ["x", "outside"], []⟩, ⟨"x", "mid", ["anc"], []⟩]
  branch_exists := fun _ => false
  cherrypick := fun _ => .ok

/-- A backend on which the built tree contains a merge commit with
both parents inside the range, so `build_tree` succeeds and
`verify_tree` rejects. -/
def verifyFailBackend : GitBackend where
  remote := none
  ref_hash := fun _ => "tip"
  common_ancestor := fun _ => "anc"
  log_commit := fun h => ⟨h, "root", [], []⟩
  log_range := fun _ _ => [⟨"m", "merge", ["x", "anc"], []⟩, ⟨"x", "mid", ["anc"], []⟩]
  branch_exists := fun _ => false
  cherrypick := fun _ => .ok

theorem verifyNodes_ok_iff (l : List Commit) :
    verifyNodes l = .ok () ↔ ∀ c ∈ l, c.is_merger = false ∧ c.refs.length ≤ 1 := by
  induction l with
  | nil => simp [verifyNodes]
  | cons c cs ih =>
    simp only [verifyNodes]
    by_cases hm : c.is_merger = true
    · rw [if_pos hm]
      constructor
      · intro h; exact absurd h (by simp)
      · intro h; exact absurd (h c (by simp)).1 (by simp [hm])
    · rw [if_neg hm]
      by_cases hr : c.refs.length > 1
      · rw [if_pos hr]
        constructor
        · intro h; exact absurd h (by simp)
        · intro h; exact absurd (h c (by simp)).2 (by omega)
      · rw [if_neg hr]
        rw [ih]
        constructor
        · intro h d hd
          rcases List.mem_cons.mp hd with rfl | hd'
          · exact ⟨Bool.eq_false_iff.mpr hm, by omega⟩
          · exact h d hd'
        · intro h d hd
          exact h d (List.mem_cons_of_mem _ hd)

theorem verifyNodes_error (l : List Commit) (msg : String)
    (h : verifyNodes l = .error msg) :
    ∃ c ∈ l, (c.is_merger = true ∧ msg = mergeErrorMsg c.full_hash) ∨
      (c.is_merger = false ∧ c.refs.length > 1 ∧
        msg = multiRefErrorMsg c.full_hash c.refs) := by
  induction l with
  | nil => simp [verifyNodes] at h
  | cons c cs ih =>
    simp only [verifyNodes] at h
    by_cases hm : c.is_merger = true
    · rw [if_pos hm] at h
      exact ⟨c, by simp, Or.inl ⟨hm, (Except.error.injEq _ _ ▸ h.symm : msg = _)⟩⟩
    · rw [if_neg hm] at h
      by_cases hr : c.refs.length > 1
      · rw [if_pos hr] at h
        exact ⟨c, by simp,
          Or.inr ⟨Bool.eq_false_iff.mpr hm, hr, (Except.error.injEq _ _ ▸ h.symm : msg = _)⟩⟩
      · rw [if_neg hr] at h
        obtain ⟨c', hc', hd⟩ := ih h
        exact ⟨c', by simp [hc'], hd⟩

/-- C1: `verify_tree` succeeds silently exactly on trees in which no
node is a merge commit and no node carries more than one label; on any
other tree it raises an error that names the offending commit's
identifier (and, for a multi-labeled commit, all its labels in sorted
order, comma-joined). -/
theorem verify_tree_characterization (root : Commit) :
    (verify_tree root = .ok () ↔
      ∀ c ∈ root.all_nodes, c.is_merger = false ∧ c.refs.length ≤ 1) ∧
    (∀ msg, verify_tree root = .error msg →
      ∃ c ∈ root.all_nodes,
        (c.is_merger = true ∧ msg = mergeErrorMsg c.full_hash) ∨
        (c.is_merger = false ∧ c.refs.length > 1 ∧
          msg = multiRefErrorMsg c.full_hash c.refs)) :=
  ⟨verifyNodes_ok_iff root.all_nodes,
   fun msg h => verifyNodes_error root.all_nodes msg h⟩

/-- Witness for C1: on a concrete tree containing a merge commit,
`verify_tree` raises the exact merge-commit message, and the
characterization names the offending node. -/
theorem verify_tree_characterization_witness :
    verify_tree mergeTreeExample = .error (mergeErrorMsg "m1") ∧
    ∃ c ∈ mergeTreeExample.all_nodes,
      (c.is_merger = true ∧ mergeErrorMsg "m1" = mergeErrorMsg c.full_hash) ∨
      (c.is_merger = false ∧ c.refs.length > 1 ∧
        mergeErrorMsg "m1" = multiRefErrorMsg c.full_hash c.refs) :=
  ⟨rfl,
   (verify_tree_characterization mergeTreeExample).2 (mergeErrorMsg "m1") rfl⟩

theorem bfsLoop_nil (rr : Option String) (rh : String) : bfsLoop rr rh [] = [] := by
  rw [bfsLoop]

theorem bfsLoop_cons (rr : Option String) (rh : String) (par : Entry) (rest : List Entry) :
    bfsLoop rr rh (par :: rest) =
      (par.commit.children.filterMap fun c => childEmit rr rh par (Entry.child c par)) ++
      bfsLoop rr rh (rest ++ par.commit.children.map fun c => Entry.child c par) := by
  rw [bfsLoop]

theorem bfsEdgesLoop_nil (rr : Option String) (rh : String) : bfsEdgesLoop rr rh [] = [] := by
  rw [bfsEdgesLoop]

theorem bfsEdgesLoop_cons (rr : Option String) (rh : String) (par : Entry)
    (rest : List Entry) :
    bfsEdgesLoop rr rh (par :: rest) =
      (par.commit.children.map fun c =>
        (par.commit, c, childEmit rr rh par (Entry.child c par))) ++
      bfsEdgesLoop rr rh (rest ++ par.commit.children.map fun c => Entry.child c par) := by
  rw [bfsEdgesLoop]

/-- The segments of `bfs_segments` are exactly the yields recorded by
the edge-instrumented traversal, in order. -/
theorem bfsLoop_eq_filterMap_edges (rr : Option String) (rh : String) :
    ∀ n q, queueSize q ≤ n →
      bfsLoop rr rh q = (bfsEdgesLoop rr rh q).filterMap (fun t => t.2.2) := by
  intro n
  induction n with
  | zero =>
    intro q hq
    match q with
    | [] => simp [bfsLoop_nil, bfsEdgesLoop_nil]
    | par :: rest =>
      exfalso
      have := csize_pos par.commit
      simp [queueSize] at hq
      omega
  | succ n ih =>
    intro q hq
    match q with
    | [] => simp [bfsLoop_nil, bfsEdgesLoop_nil]
    | par :: rest =>
      rw [bfsLoop_cons, bfsEdgesLoop_cons, List.filterMap_append, List.filterMap_map]
      have hlt := queueSize_step par rest
      rw [ih _ (by omega)]
      rfl

theorem bfs_segments_eq_filterMap_edges (root : Commit) :
    bfs_segments root = (bfs_edges root).filterMap (fun t => t.2.2) :=
  bfsLoop_eq_filterMap_edges _ _ (queueSize [Entry.root root]) _ le_rfl

theorem Reach.trans' {a b c : Commit} (h1 : Reach a b) (h2 : Reach b c) : Reach a c := by
  induction h2 with
  | refl => exact h1
  | step _ hc ih => exact Reach.step ih hc

theorem EntryInv_root (root : Commit) : EntryInv root (Entry.root root) :=
  ⟨root, Reach.refl root, rfl, Reach.refl root⟩

theorem EntryInv_child (root : Commit) (par : Entry) (c : Commit)
    (hpar : EntryInv root par) (hc : c ∈ par.commit.children) :
    EntryInv root (Entry.child c par) := by
  obtain ⟨s, hrs, hh, hse⟩ := hpar
  unfold Entry.child
  split
  · exact ⟨s, hrs, hh, Reach.step hse hc⟩
  · exact ⟨c, Reach.step (Reach.trans' hrs hse) hc, rfl, Reach.refl c⟩

theorem childEmit_sound (root : Commit) (par : Entry) (c : Commit)
    (hpar : EntryInv root par) (hc : c ∈ par.commit.children) :
    ∀ seg, childEmit root.first_ref root.full_hash par (Entry.child c par) = some seg →
      (∃ s e, Reach root s ∧ StrictDesc s e ∧
        s.full_hash = seg.start_full_hash ∧ e.full_hash = seg.end_full_hash) ∨
      (seg.start_full_hash = root.full_hash ∧ seg.end_full_hash = root.full_hash) := by
  intro seg hemit
  obtain ⟨s, hrs, hh, hse⟩ := hpar
  unfold Entry.child at hemit
  by_cases hre : c.refs.isEmpty
  · rw [if_pos hre] at hemit
    unfold childEmit at hemit
    simp only at hemit
    match hps : par.seg_start_ref with
    | none => rw [hps] at hemit; simp at hemit
    | some neRef =>
      rw [hps] at hemit
      simp only [bne_self_eq_false, Bool.and_false, Bool.false_and, Bool.false_eq_true,
        if_false] at hemit
      by_cases hguard : (neRef != "" && (par.seg_start_hash == root.full_hash)) = true
      · rw [if_pos hguard] at hemit
        obtain ⟨-, h2⟩ := Bool.and_eq_true_iff.mp hguard
        have : par.seg_start_hash = root.full_hash := by simpa using h2
        right
        cases hemit
        exact ⟨rfl, this⟩
      · rw [if_neg hguard] at hemit
        simp at hemit
  · rw [if_neg hre] at hemit
    match hcr : c.refs with
    | [] => rw [hcr] at hre; simp at hre
    | r0 :: rs =>
      unfold childEmit at hemit
      simp only [Commit.first_ref, hcr, List.head?] at hemit
      have hreach_c : StrictDesc s c := ⟨par.commit, hse, hc⟩
      by_cases hcond : (r0 != "" && refTruthy par.seg_start_ref &&
          (some r0 != par.seg_start_ref)) = true
      · rw [if_pos hcond] at hemit
        cases hemit
        exact Or.inl ⟨s, c, hrs, hreach_c, hh, rfl⟩
      · rw [if_neg hcond] at hemit
        by_cases hguard : (r0 != "" && (par.seg_start_hash == root.full_hash)) = true
        · rw [if_pos hguard] at hemit
          obtain ⟨-, h2⟩ := Bool.and_eq_true_iff.mp hguard
          have hph : par.seg_start_hash = root.full_hash := by simpa using h2
          cases hemit
          exact Or.inl ⟨s, c, hrs, hreach_c, hh.trans hph, rfl⟩
        · rw [if_neg hguard] at hemit
          simp at hemit

theorem bfsLoop_descendant (root : Commit) :
    ∀ n q, queueSize q ≤ n → (∀ e ∈ q, EntryInv root e) →
      ∀ seg ∈ bfsLoop root.first_ref root.full_hash q,
        (∃ s e, Reach root s ∧ StrictDesc s e ∧
          s.full_hash = seg.start_full_hash ∧ e.full_hash = seg.end_full_hash) ∨
        (seg.start_full_hash = root.full_hash ∧ seg.end_full_hash = root.full_hash) := by
  intro n
  induction n with
  | zero =>
    intro q hq hinv seg hseg
    match q with
    | [] => rw [bfsLoop_nil] at hseg; simp at hseg
    | par :: rest =>
      exfalso
      have := csize_pos par.commit
      simp [queueSize] at hq
      omega
  | succ n ih =>
    intro q hq hinv seg hseg
    match q with
    | [] => rw [bfsLoop_nil] at hseg; simp at hseg
    | par :: rest =>
      rw [bfsLoop_cons] at hseg
      rcases List.mem_append.mp hseg with h1 | h2
      · obtain ⟨c, hcmem, hemit⟩ := List.mem_filterMap.mp h1
        exact childEmit_sound root par c (hinv par (by simp)) hcmem seg hemit
      · have hlt := queueSize_step par rest
        refine ih _ (by omega) ?_ seg h2
        intro e he
        rcases List.mem_append.mp he with he1 | he2
        · exact hinv e (List.mem_cons_of_mem _ he1)
        · obtain ⟨c, hcmem, rfl⟩ := List.mem_map.mp he2
          exact EntryInv_child root par c (hinv par (by simp)) hcmem

/-- C2 (amended): every segment yielded by `bfs_segments` either has
an end commit that is a strict descendant (via the tree's parent/child
edges) of a commit bearing the segment's start hash, or is the
degenerate root-adjacent segment whose start and end hashes both equal
the root's hash (emitted by the `elif` branch when an unlabeled child
inherits an open start located at the root). -/
theorem bfs_segments_end_descendant_or_degenerate (root : Commit) :
    ∀ seg ∈ bfs_segments root,
      (∃ s e, Reach root s ∧ StrictDesc s e ∧
        s.full_hash = seg.start_full_hash ∧ e.full_hash = seg.end_full_hash) ∨
      (seg.start_full_hash = root.full_hash ∧ seg.end_full_hash = root.full_hash) := by
  intro seg hseg
  refine bfsLoop_descendant root (queueSize [Entry.root root]) _ le_rfl ?_ seg hseg
  intro e he
  have : e = Entry.root root := by simpa using he
  rw [this]
  exact EntryInv_root root

/-- Counterexample to C2 as stated: `labeledRootTree` passes
`verify_tree`, yet `bfs_segments` yields a segment whose
`end_full_hash` equals its `start_full_hash` (so its end is not a
strict descendant of its start). -/
theorem bfs_segments_strict_descendant_cex :
    verify_tree labeledRootTree = .ok () ∧
    ∃ seg ∈ bfs_segments labeledRootTree, seg.end_full_hash = seg.start_full_hash := by
  refine ⟨rfl, ⟨some "A", "r", "A", "r"⟩, ?_, rfl⟩
  simp [labeledRootTree, bfs_segments, Entry.root, bfsLoop_cons, bfsLoop_nil, Entry.child,
    childEmit, refTruthy, Commit.first_ref, Commit.refs, Commit.children, Commit.full_hash]

/-- Witness for the amended C2: on a concrete chain `A → B` the single
emitted segment satisfies the (non-degenerate) strict-descendant
disjunct. -/
theorem bfs_segments_end_descendant_or_degenerate_witness :
    (⟨some "A", "hA", "B", "hB"⟩ : Segment) ∈ bfs_segments twoLabelChain ∧
    ((∃ s e, Reach twoLabelChain s ∧ StrictDesc s e ∧
      s.full_hash = (⟨some "A", "hA", "B", "hB"⟩ : Segment).start_full_hash ∧
      e.full_hash = (⟨some "A", "hA", "B", "hB"⟩ : Segment).end_full_hash) ∨
    ((⟨some "A", "hA", "B", "hB"⟩ : Segment).start_full_hash = twoLabelChain.full_hash ∧
      (⟨some "A", "hA", "B", "hB"⟩ : Segment).end_full_hash = twoLabelChain.full_hash)) := by
  have hmem : (⟨some "A", "hA", "B", "hB"⟩ : Segment) ∈ bfs_segments twoLabelChain := by
    simp [twoLabelChain, bfs_segments, Entry.root, bfsLoop_cons, bfsLoop_nil, Entry.child,
      childEmit, refTruthy, Commit.first_ref, Commit.refs, Commit.children, Commit.full_hash]
  exact ⟨hmem, bfs_segments_end_descendant_or_degenerate twoLabelChain _ hmem⟩

theorem bfsEdgesLoop_shape (rr : Option String) (rh : String) :
    ∀ n q, queueSize q ≤ n → ∀ t ∈ bfsEdgesLoop rr rh q,
      ∃ (par : Entry) (c : Commit), c ∈ par.commit.children ∧
        t = (par.commit, c, childEmit rr rh par (Entry.child c par)) := by
  intro n
  induction n with
  | zero =>
    intro q hq t ht
    match q with
    | [] => rw [bfsEdgesLoop_nil] at ht; simp at ht
    | par :: rest =>
      exfalso
      have := csize_pos par.commit
      simp [queueSize] at hq
      omega
  | succ n ih =>
    intro q hq t ht
    match q with
    | [] => rw [bfsEdgesLoop_nil] at ht; simp at ht
    | par :: rest =>
      rw [bfsEdgesLoop_cons] at ht
      rcases List.mem_append.mp ht with h1 | h2
      · obtain ⟨c, hcmem, rfl⟩ := List.mem_map.mp h1
        exact ⟨par, c, hcmem, rfl⟩
      · have hlt := queueSize_step par rest
        exact ih _ (by omega) t h2

/-- On an edge whose child commit is unlabeled, the only emission the
loop can produce is the degenerate root-adjacent one. -/
theorem childEmit_unlabeled_child (rr : Option String) (rh : String) (par : Entry)
    (c : Commit) (hc : c.refs = []) :
    childEmit rr rh par (Entry.child c par) = none ∨
    ∃ seg, childEmit rr rh par (Entry.child c par) = some seg ∧
      seg.start_ref = rr ∧ seg.start_full_hash = rh ∧ seg.end_full_hash = rh := by
  unfold Entry.child
  rw [if_pos (by simp [hc])]
  unfold childEmit
  simp only
  match hps : par.seg_start_ref with
  | none => simp
  | some neRef =>
    simp only [bne_self_eq_false, Bool.and_false, Bool.false_and, Bool.false_eq_true,
      if_false]
    by_cases hguard : (neRef != "" && (par.seg_start_hash == rh)) = true
    · rw [if_pos hguard]
      obtain ⟨-, h2⟩ := Bool.and_eq_true_iff.mp hguard
      exact Or.inr ⟨_, rfl, rfl, rfl, by simpa using h2⟩
    · rw [if_neg hguard]
      exact Or.inl rfl

theorem bfsLoop_chain (k : Nat) :
    bfsLoop (some "A") "hA" [⟨unlabeledChain (k + 1), some "A", "hA"⟩] =
      List.replicate k degSegA ++ [realSegAC] := by
  induction k with
  | zero =>
    simp [unlabeledChain, bfsLoop_cons, bfsLoop_nil, Entry.child, childEmit, refTruthy,
      Commit.first_ref, Commit.refs, Commit.children, Commit.full_hash, realSegAC]
  | succ k ih =>
    have hu : (unlabeledChain (k + 1)).refs = [] := by
      simp [unlabeledChain, Commit.refs]
    have hentry : Entry.child (unlabeledChain (k + 1))
        ⟨unlabeledChain (k + 1 + 1), some "A", "hA"⟩ =
        ⟨unlabeledChain (k + 1), some "A", "hA"⟩ := by
      unfold Entry.child
      rw [if_pos (by simp [hu])]
    have hemit : childEmit (some "A") "hA" ⟨unlabeledChain (k + 1 + 1), some "A", "hA"⟩
        ⟨unlabeledChain (k + 1), some "A", "hA"⟩ = some degSegA := by
      simp [childEmit, refTruthy, degSegA]
    have hch : (unlabeledChain (k + 1 + 1)).children = [unlabeledChain (k + 1)] := rfl
    rw [bfsLoop_cons]
    rw [show (⟨unlabeledChain (k + 1 + 1), some "A", "hA"⟩ : Entry).commit =
      unlabeledChain (k + 1 + 1) from rfl, hch]
    simp only [List.filterMap_cons, List.filterMap_nil, List.map_cons, List.map_nil,
      List.nil_append, hentry, hemit]
    rw [ih]
    simp [List.replicate_succ]

theorem bfs_segments_labeledChain (n : Nat) :
    bfs_segments (labeledChain n) = List.replicate n degSegA ++ [realSegAC] := by
  match n with
  | 0 =>
    simp [labeledChain, unlabeledChain, bfs_segments, Entry.root, bfsLoop_cons, bfsLoop_nil,
      Entry.child, childEmit, refTruthy, Commit.first_ref, Commit.refs, Commit.children,
      Commit.full_hash, realSegAC]
  | k + 1 =>
    have hu : (unlabeledChain (k + 1)).refs = [] := by
      simp [unlabeledChain, Commit.refs]
    have hentry : Entry.child (unlabeledChain (k + 1))
        ⟨labeledChain (k + 1), some "A", "hA"⟩ =
        ⟨unlabeledChain (k + 1), some "A", "hA"⟩ := by
      unfold Entry.child
      rw [if_pos (by simp [hu])]
    have hemit : childEmit (some "A") "hA" ⟨labeledChain (k + 1), some "A", "hA"⟩
        ⟨unlabeledChain (k + 1), some "A", "hA"⟩ = some degSegA := by
      simp [childEmit, refTruthy, degSegA]
    have hch : (labeledChain (k + 1)).children = [unlabeledChain (k + 1)] := rfl
    rw [bfs_segments]
    rw [show (labeledChain (k + 1)).first_ref = some "A" from rfl,
      show (labeledChain (k + 1)).full_hash = "hA" from rfl,
      show Entry.root (labeledChain (k + 1)) =
        ⟨labeledChain (k + 1), some "A", "hA"⟩ from rfl]
    rw [bfsLoop_cons]
    rw [show (⟨labeledChain (k + 1), some "A", "hA"⟩ : Entry).commit =
      labeledChain (k + 1) from rfl, hch]
    simp only [List.filterMap_cons, List.filterMap_nil, List.map_cons, List.map_nil,
      List.nil_append, hentry, hemit]
    rw [bfsLoop_chain]
    simp [List.replicate_succ]

/-- C3 (amended): (a) when `bfs_segments` processes an edge between
two consecutive unlabeled nodes, it emits either nothing or the
degenerate root-adjacent segment (start ref = the root's first label,
start and end hashes = the root's hash) — never a genuine segment; and
(b) for a chain in which labeled commit `A` is followed by `n`
unlabeled commits and then labeled commit `C`, exactly one segment
from `A` to `C` is emitted. -/
theorem bfs_segments_unlabeled_edges :
    (∀ (root : Commit), ∀ t ∈ bfs_edges root, t.1.refs = [] → t.2.1.refs = [] →
      t.2.2 = none ∨
      ∃ seg, t.2.2 = some seg ∧ seg.start_ref = root.first_ref ∧
        seg.start_full_hash = root.full_hash ∧ seg.end_full_hash = root.full_hash) ∧
    (∀ n : Nat, ((bfs_segments (labeledChain n)).filter
      (fun s => s.start_ref == some "A" && s.end_ref == "C")).length = 1) := by
  constructor
  · intro root t ht _ hchild
    obtain ⟨par, c, hcmem, rfl⟩ :=
      bfsEdgesLoop_shape root.first_ref root.full_hash (queueSize [Entry.root root]) _
        le_rfl t ht
    exact childEmit_unlabeled_child root.first_ref root.full_hash par c hchild
  · intro n
    rw [bfs_segments_labeledChain]
    rw [List.filter_append]
    have h1 : (List.replicate n degSegA).filter
        (fun s => s.start_ref == some "A" && s.end_ref == "C") = [] := by
      apply List.filter_eq_nil_iff.mpr
      intro s hs
      have : s = degSegA := List.eq_of_mem_replicate hs
      subst this
      simp [degSegA]
    rw [h1]
    rfl

/-- Counterexample to C3 as stated: `labeledRootChain2` passes
`verify_tree`, yet the traversal emits a segment on the edge between
the two consecutive unlabeled nodes `u1` and `u2`. -/
theorem bfs_segments_unlabeled_edge_emission_cex :
    verify_tree labeledRootChain2 = .ok () ∧
    ∃ t ∈ bfs_edges labeledRootChain2,
      t.1.refs = [] ∧ t.2.1.refs = [] ∧ t.2.2 ≠ none := by
  refine ⟨rfl, (.node "u1" "" [] false [.node "u2" "" [] false []],
    .node "u2" "" [] false [], some ⟨some "A", "r", "A", "r"⟩), ?_, rfl, rfl, by simp⟩
  simp [labeledRootChain2, bfs_edges, Entry.root, bfsEdgesLoop_cons, bfsEdgesLoop_nil,
    Entry.child, childEmit, refTruthy, Commit.first_ref, Commit.refs, Commit.children,
    Commit.full_hash]

/-- Witness for the amended C3: its part (a) applied to the concrete
unlabeled-unlabeled edge of `labeledRootChain2` (where the degenerate
disjunct is realized), and part (b) applied at `n = 2`. -/
theorem bfs_segments_unlabeled_edges_witness :
    ((.node "u1" "" [] false [.node "u2" "" [] false []],
      .node "u2" "" [] false [], some (⟨some "A", "r", "A", "r"⟩ : Segment)) ∈
        bfs_edges labeledRootChain2 ∧
      (some (⟨some "A", "r", "A", "r"⟩ : Segment) = none ∨
        ∃ seg, some (⟨some "A", "r", "A", "r"⟩ : Segment) = some seg ∧
          seg.start_ref = labeledRootChain2.first_ref ∧
          seg.start_full_hash = labeledRootChain2.full_hash ∧
          seg.end_full_hash = labeledRootChain2.full_hash)) ∧
    ((bfs_segments (labeledChain 2)).filter
      (fun s => s.start_ref == some "A" && s.end_ref == "C")).length = 1 := by
  have hmem : (Commit.node "u1" "" [] false [.node "u2" "" [] false []],
      Commit.node "u2" "" [] false [], some (⟨some "A", "r", "A", "r"⟩ : Segment)) ∈
        bfs_edges labeledRootChain2 := by
    simp [labeledRootChain2, bfs_edges, Entry.root, bfsEdgesLoop_cons, bfsEdgesLoop_nil,
      Entry.child, childEmit, refTruthy, Commit.first_ref, Commit.refs, Commit.children,
      Commit.full_hash]
  refine ⟨⟨hmem, ?_⟩, bfs_segments_unlabeled_edges.2 2⟩
  exact bfs_segments_unlabeled_edges.1 labeledRootChain2 _ hmem rfl rfl

theorem noEmptyRefs_refs {c : Commit} (h : noEmptyRefs c = true) :
    ∀ s ∈ c.refs, s ≠ "" := by
  cases c with
  | node hh ss r m cs =>
    intro s hs
    rw [noEmptyRefs] at h
    obtain ⟨h1, -⟩ := Bool.and_eq_true_iff.mp h
    have := List.all_eq_true.mp h1 s hs
    simpa using this

theorem noEmptyRefsList_mem : ∀ {cs : List Commit}, noEmptyRefsList cs = true →
    ∀ {d : Commit}, d ∈ cs → noEmptyRefs d = true := by
  intro cs
  induction cs with
  | nil => intro _ d hd; simp at hd
  | cons x xs ih =>
    intro h d hd
    rw [noEmptyRefsList] at h
    obtain ⟨hx, hxs⟩ := Bool.and_eq_true_iff.mp h
    rcases List.mem_cons.mp hd with rfl | hd'
    · exact hx
    · exact ih hxs hd'

theorem noEmptyRefs_child {c d : Commit} (h : noEmptyRefs c = true)
    (hd : d ∈ c.children) : noEmptyRefs d = true := by
  cases c with
  | node hh ss r m cs =>
    rw [noEmptyRefs] at h
    obtain ⟨-, h2⟩ := Bool.and_eq_true_iff.mp h
    exact noEmptyRefsList_mem h2 hd

theorem refTruthy_iff (r : Option String) :
    refTruthy r = true ↔ ∃ s, r = some s ∧ s ≠ "" := by
  match r with
  | none => simp [refTruthy]
  | some s => simp [refTruthy]

theorem SegInv_mono {rr : Option String} {rh : String} {acc more : List Segment}
    {e : Entry} (h : SegInv rr rh acc e) : SegInv rr rh (acc ++ more) e := by
  obtain ⟨h1, h2, h3⟩ := h
  refine ⟨h1, h2, fun s hs => ?_⟩
  obtain ⟨hne, hor⟩ := h3 s hs
  refine ⟨hne, ?_⟩
  rcases hor with h | ⟨sg, hsg, he⟩
  · exact Or.inl h
  · exact Or.inr ⟨sg, List.mem_append_left _ hsg, he⟩

theorem childEmit_none (rr : Option String) (rh : String) (par ne : Entry)
    (h : ne.seg_start_ref = none) : childEmit rr rh par ne = none := by
  unfold childEmit
  rw [h]

theorem childEmit_some (rr : Option String) (rh : String) (par ne : Entry) (neRef : String)
    (h : ne.seg_start_ref = some neRef) :
    childEmit rr rh par ne =
      if neRef != "" && refTruthy par.seg_start_ref && (some neRef != par.seg_start_ref) then
        some ⟨par.seg_start_ref, par.seg_start_hash, neRef, ne.seg_start_hash⟩
      else if neRef != "" && (par.seg_start_hash == rh) then
        some ⟨rr, rh, neRef, ne.seg_start_hash⟩
      else none := by
  unfold childEmit
  rw [h]

/-- Any segment yielded off an entry satisfying the invariant has a
start label that is the root's first label or the end label of an
already-emitted segment. -/
theorem childEmit_start_ok (rr : Option String) (rh : String) (par ne : Entry)
    (acc : List Segment) (hpar : SegInv rr rh acc par) :
    ∀ seg, childEmit rr rh par ne = some seg →
      seg.start_ref = rr ∨ ∃ sg ∈ acc, some sg.end_ref = seg.start_ref := by
  intro seg hemit
  obtain ⟨-, -, h3⟩ := hpar
  cases hne : ne.seg_start_ref with
  | none =>
    rw [childEmit_none rr rh par ne hne] at hemit
    exact absurd hemit (by simp)
  | some neRef =>
    rw [childEmit_some rr rh par ne neRef hne] at hemit
    by_cases hcond : (neRef != "" && refTruthy par.seg_start_ref &&
        (some neRef != par.seg_start_ref)) = true
    · rw [if_pos hcond] at hemit
      obtain ⟨h1, -⟩ := Bool.and_eq_true_iff.mp hcond
      obtain ⟨-, h2⟩ := Bool.and_eq_true_iff.mp h1
      obtain ⟨p, hp, -⟩ := (refTruthy_iff _).mp h2
      obtain ⟨-, hor⟩ := h3 p hp
      cases hemit
      rcases hor with h | ⟨sg, hsg, he⟩
      · exact Or.inl (hp.trans h)
      · exact Or.inr ⟨sg, hsg, by rw [hp, he]⟩
    · rw [if_neg hcond] at hemit
      by_cases hguard : (neRef != "" && (par.seg_start_hash == rh)) = true
      · rw [if_pos hguard] at hemit
        cases hemit
        exact Or.inl rfl
      · rw [if_neg hguard] at hemit
        exact absurd hemit (by simp)

/-- Invariant preservation for a child entry, against the emission list
of the popped parent. -/
theorem SegInv_child (rr : Option String) (rh : String) (par : Entry)
    (acc : List Segment) (c : Commit) (hpar : SegInv rr rh acc par)
    (hc : c ∈ par.commit.children) :
    SegInv rr rh
      (acc ++ par.commit.children.filterMap fun d => childEmit rr rh par (Entry.child d par))
      (Entry.child c par) := by
  obtain ⟨h1, h2, h3⟩ := hpar
  have hcne : noEmptyRefs c = true := noEmptyRefs_child h1 hc
  by_cases hre : c.refs.isEmpty
  · rw [show Entry.child c par = ⟨c, par.seg_start_ref, par.seg_start_hash⟩ from by
      unfold Entry.child; rw [if_pos hre]]
    refine ⟨hcne, fun h => h2 h, fun s hs => ?_⟩
    obtain ⟨hne', hor⟩ := h3 s hs
    refine ⟨hne', ?_⟩
    rcases hor with h | ⟨sg, hsg, he⟩
    · exact Or.inl h
    · exact Or.inr ⟨sg, List.mem_append_left _ hsg, he⟩
  · have hch : Entry.child c par = ⟨c, c.first_ref, c.full_hash⟩ := by
      unfold Entry.child; rw [if_neg hre]
    cases hcr : c.refs with
    | nil => rw [hcr] at hre; simp at hre
    | cons r0 rs =>
      have hfr : c.first_ref = some r0 := by
        rw [Commit.first_ref, hcr]
        rfl
      rw [hch]
      have hr0ne : r0 ≠ "" := noEmptyRefs_refs hcne r0 (by rw [hcr]; simp)
      refine ⟨hcne, fun h => ?_, fun s hs => ?_⟩
      · rw [show (⟨c, c.first_ref, c.full_hash⟩ : Entry).seg_start_ref = c.first_ref
          from rfl, hfr] at h
        exact absurd h (by simp)
      · have hs' : c.first_ref = some s := hs
        rw [hfr] at hs'
        have hsr0 : s = r0 := by injection hs'.symm
        subst hsr0
        refine ⟨hr0ne, ?_⟩
        have hemitform := childEmit_some rr rh par (Entry.child c par) s (by rw [hch, hfr])
        -- analyse the emission for this very child
        by_cases hcond : (s != "" && refTruthy par.seg_start_ref &&
            (some s != par.seg_start_ref)) = true
        · -- first guard fires: a segment ending at s is emitted
          right
          refine ⟨⟨par.seg_start_ref, par.seg_start_hash, s, (Entry.child c par).seg_start_hash⟩,
            List.mem_append_right _ ?_, rfl⟩
          refine List.mem_filterMap.mpr ⟨c, hc, ?_⟩
          rw [hemitform, if_pos hcond]
        · -- first guard does not fire
          have h1' : (s != "") = true := by simp [hr0ne]
          by_cases htr : refTruthy par.seg_start_ref = true
          · -- parent's open start is truthy, so it must equal `some s`
            have heq : some s = par.seg_start_ref := by
              by_contra hne2
              apply hcond
              simp only [h1', htr, Bool.true_and, Bool.and_true]
              simpa using hne2
            obtain ⟨p, hp, -⟩ := (refTruthy_iff _).mp htr
            have hps : p = s := by
              rw [hp] at heq
              injection heq.symm
            subst hps
            obtain ⟨-, hor⟩ := h3 p hp
            rcases hor with h | ⟨sg, hsg, he⟩
            · exact Or.inl h
            · exact Or.inr ⟨sg, List.mem_append_left _ hsg, he⟩
          · -- parent's open start is falsy, hence `none`, hence at the
            -- root: the `elif` emits a segment ending at `s`
            have hpn : par.seg_start_ref = none := by
              cases hps : par.seg_start_ref with
              | none => rfl
              | some p =>
                obtain ⟨hpne, -⟩ := h3 p hps
                exfalso
                apply htr
                rw [hps]
                simp [refTruthy, hpne]
            have hph : par.seg_start_hash = rh := h2 hpn
            right
            refine ⟨⟨rr, rh, s, (Entry.child c par).seg_start_hash⟩,
              List.mem_append_right _ ?_, rfl⟩
            refine List.mem_filterMap.mpr ⟨c, hc, ?_⟩
            rw [hemitform, if_neg (by simp [hpn, refTruthy]), if_pos (by simp [h1', hph])]

theorem depChain_append (rr : Option String) :
    ∀ (s1 : List Segment) (acc s2 : List Segment),
      (∀ s ∈ s1, s.start_ref = rr ∨ ∃ sg ∈ acc, some sg.end_ref = s.start_ref) →
      DepChain rr (acc ++ s1) s2 → DepChain rr acc (s1 ++ s2) := by
  intro s1
  induction s1 with
  | nil =>
    intro acc s2 _ h2
    rw [List.append_nil] at h2
    exact h2
  | cons s t ih =>
    intro acc s2 hok h2
    refine ⟨hok s (by simp), ?_⟩
    apply ih (acc ++ [s]) s2
    · intro x hx
      rcases hok x (List.mem_cons_of_mem _ hx) with h | ⟨sg, hsg, he⟩
      · exact Or.inl h
      · exact Or.inr ⟨sg, List.mem_append_left _ hsg, he⟩
    · rw [List.append_assoc]
      exact h2

theorem bfsLoop_depChain (rr : Option String) (rh : String) :
    ∀ n q acc, queueSize q ≤ n → (∀ e ∈ q, SegInv rr rh acc e) →
      DepChain rr acc (bfsLoop rr rh q) := by
  intro n
  induction n with
  | zero =>
    intro q acc hq hinv
    match q with
    | [] => rw [bfsLoop_nil]; trivial
    | par :: rest =>
      exfalso
      have := csize_pos par.commit
      simp [queueSize] at hq
      omega
  | succ n ih =>
    intro q acc hq hinv
    match q with
    | [] => rw [bfsLoop_nil]; trivial
    | par :: rest =>
      rw [bfsLoop_cons]
      apply depChain_append
      · intro s hs
        obtain ⟨c, _, hemit⟩ := List.mem_filterMap.mp hs
        exact childEmit_start_ok rr rh par _ acc (hinv par (by simp)) s hemit
      · have hlt := queueSize_step par rest
        apply ih _ _ (by omega)
        intro e he
        rcases List.mem_append.mp he with he1 | he2
        · exact SegInv_mono (hinv e (List.mem_cons_of_mem _ he1))
        · obtain ⟨c, hcmem, rfl⟩ := List.mem_map.mp he2
          exact SegInv_child rr rh par acc c (hinv par (by simp)) hcmem

theorem depChain_index (rr : Option String) :
    ∀ (l acc : List Segment), DepChain rr acc l →
      ∀ i (h : i < l.length), (l.get ⟨i, h⟩).start_ref = rr ∨
        ∃ sg ∈ acc ++ l.take i, some sg.end_ref = (l.get ⟨i, h⟩).start_ref := by
  intro l
  induction l with
  | nil => intro acc _ i h; simp at h
  | cons s t ih =>
    intro acc hdc i h
    obtain ⟨hs, hrest⟩ := hdc
    match i with
    | 0 =>
      rcases hs with h1 | ⟨sg, hsg, he⟩
      · exact Or.inl h1
      · exact Or.inr ⟨sg, List.mem_append_left _ hsg, he⟩
    | i + 1 =>
      have := ih (acc ++ [s]) hrest i (by simpa using h)
      rcases this with h1 | ⟨sg, hsg, he⟩
      · exact Or.inl h1
      · refine Or.inr ⟨sg, ?_, he⟩
        rw [List.append_assoc] at hsg
        simpa using hsg

/-- C9 (amended): for every tree none of whose labels is the empty
string, the sequence emitted by `bfs_segments` respects dependency
order — each segment's start label is the processing root's first
label or equals the end label of some segment emitted strictly
earlier. -/
theorem bfs_segments_dependency_order (root : Commit) (hne : noEmptyRefs root = true) :
    ∀ i (h : i < (bfs_segments root).length),
      ((bfs_segments root).get ⟨i, h⟩).start_ref = root.first_ref ∨
      ∃ sg ∈ (bfs_segments root).take i,
        some sg.end_ref = ((bfs_segments root).get ⟨i, h⟩).start_ref := by
  have hroot : SegInv root.first_ref root.full_hash [] (Entry.root root) := by
    refine ⟨hne, fun _ => rfl, fun s hs => ?_⟩
    have hs' : root.refs.head? = some s := hs
    have hmem : s ∈ root.refs := by
      match hcr : root.refs with
      | [] => rw [hcr] at hs'; simp at hs'
      | r0 :: rs =>
        rw [hcr] at hs'
        simp only [List.head?] at hs'
        cases hs'
        simp
    exact ⟨noEmptyRefs_refs hne s hmem, Or.inl hs'.symm⟩
  have hchain : DepChain root.first_ref [] (bfs_segments root) := by
    apply bfsLoop_depChain root.first_ref root.full_hash (queueSize [Entry.root root])
      _ _ le_rfl
    intro e he
    have : e = Entry.root root := by simpa using he
    rw [this]
    exact hroot
  intro i h
  have := depChain_index root.first_ref (bfs_segments root) [] hchain i h
  simpa using this

theorem bfs_segments_emptyLabelTree :
    bfs_segments emptyLabelTree = [⟨some "X", "hc", "Y", "hg"⟩] := by
  simp [emptyLabelTree, bfs_segments, Entry.root, bfsLoop_cons, bfsLoop_nil, Entry.child,
    childEmit, refTruthy, Commit.first_ref, Commit.refs, Commit.children, Commit.full_hash]

/-- Counterexample to C9 as stated: `emptyLabelTree` passes
`verify_tree`, yet its single emitted segment starts at label `"X"`,
which is neither the root's label (`"R"`), nor the root itself (its
start hash differs from the root's), nor the end label of any
earlier-emitted segment. -/
theorem bfs_segments_dependency_order_cex :
    verify_tree emptyLabelTree = .ok () ∧
    ¬ (∀ i (h : i < (bfs_segments emptyLabelTree).length),
        ((bfs_segments emptyLabelTree).get ⟨i, h⟩).start_ref = emptyLabelTree.first_ref ∨
        ((bfs_segments emptyLabelTree).get ⟨i, h⟩).start_full_hash =
          emptyLabelTree.full_hash ∨
        ∃ sg ∈ (bfs_segments emptyLabelTree).take i,
          some sg.end_ref = ((bfs_segments emptyLabelTree).get ⟨i, h⟩).start_ref) := by
  refine ⟨rfl, fun h => ?_⟩
  have h0 : 0 < (bfs_segments emptyLabelTree).length := by
    rw [bfs_segments_emptyLabelTree]
    simp
  have := h 0 h0
  revert this
  have hget : (bfs_segments emptyLabelTree).get ⟨0, h0⟩ = ⟨some "X", "hc", "Y", "hg"⟩ := by
    simp [List.get_eq_getElem, bfs_segments_emptyLabelTree]
  rw [hget]
  intro hdisj
  rcases hdisj with h1 | h2 | ⟨sg, hsg, -⟩
  · simp [emptyLabelTree, Commit.first_ref, Commit.refs] at h1
  · simp [emptyLabelTree, Commit.full_hash] at h2
  · simp at hsg

theorem bfs_twoLabelChain : bfs_segments twoLabelChain = [⟨some "A", "hA", "B", "hB"⟩] := by
  simp [twoLabelChain, bfs_segments, Entry.root, bfsLoop_cons, bfsLoop_nil, Entry.child,
    childEmit, refTruthy, Commit.first_ref, Commit.refs, Commit.children, Commit.full_hash]

theorem bfs_twoLabelChain_pos : 0 < (bfs_segments twoLabelChain).length := by
  rw [bfs_twoLabelChain]
  simp

/-- Witness for the amended C9 on the concrete chain `A → B` at
position 0. -/
theorem bfs_segments_dependency_order_witness :
    noEmptyRefs twoLabelChain = true ∧
    (((bfs_segments twoLabelChain).get ⟨0, bfs_twoLabelChain_pos⟩).start_ref =
        twoLabelChain.first_ref ∨
      ∃ sg ∈ (bfs_segments twoLabelChain).take 0,
        some sg.end_ref =
          ((bfs_segments twoLabelChain).get ⟨0, bfs_twoLabelChain_pos⟩).start_ref) :=
  ⟨rfl, bfs_segments_dependency_order twoLabelChain rfl 0 bfs_twoLabelChain_pos⟩

theorem temp_provider_succ (ex : String → Bool) (old : String) (fuel i : Nat) :
    temp_branch_name_provider ex old (fuel + 1) i =
      if ex (old ++ "-tmp-" ++ toString i) then
        temp_branch_name_provider ex old fuel (i + 1)
      else some (old ++ "-tmp-" ++ toString i, i) := rfl

/-- C8 (amended): a successful temporary-name search returns a name of
the form `<label>-tmp-<i>` that no local branch bears at the time of
the call, leaves the shared counter at the index it found, and — as
long as the set of existing local branches is unchanged — a repeated
call for the same label from that state returns the very same name. -/
theorem temp_branch_name_provider_spec :
    ∀ (git_branch_exists : String → Bool) (old_name : String) (fuel i name : _) (i' : Nat),
      temp_branch_name_provider git_branch_exists old_name fuel i = some (name, i') →
        git_branch_exists name = false ∧
        name = old_name ++ "-tmp-" ++ toString i' ∧
        i ≤ i' ∧
        ∀ fuel', 0 < fuel' →
          temp_branch_name_provider git_branch_exists old_name fuel' i' = some (name, i') := by
  intro ex old fuel
  induction fuel with
  | zero =>
    intro i name i' h
    simp [temp_branch_name_provider] at h
  | succ fuel ih =>
    intro i name i' h
    rw [temp_provider_succ] at h
    by_cases hex : ex (old ++ "-tmp-" ++ toString i) = true
    · rw [if_pos hex] at h
      obtain ⟨h1, h2, h3, h4⟩ := ih (i + 1) name i' h
      exact ⟨h1, h2, by omega, h4⟩
    · rw [if_neg hex] at h
      have hn : old ++ "-tmp-" ++ toString i = name := by
        have := congrArg (fun o => o.map Prod.fst) h
        simpa using this
      have hi : i = i' := by
        have := congrArg (fun o => o.map Prod.snd) h
        simpa using this
      subst hn
      subst hi
      refine ⟨by simpa using hex, rfl, le_rfl, ?_⟩
      intro fuel' hf
      match fuel', hf with
      | f + 1, _ =>
        rw [temp_provider_succ, if_neg hex]

/-- Counterexample to C8 as stated: repeated calls with the same label
do *not* always return the same name during a run — once the first
returned name has been created as a local branch (which every flow
does immediately after the call), the next call for the same label
skips past it.  The first call (no branch exists) returns
`A-tmp-0`; after `A-tmp-0` exists, the same allocator state yields
`A-tmp-1`. -/
theorem temp_branch_name_provider_stability_cex :
    temp_branch_name_provider (fun _ => false) "A" 5 0 = some ("A-tmp-0", 0) ∧
    temp_branch_name_provider (fun n => n == "A-tmp-0") "A" 5 0 = some ("A-tmp-1", 1) ∧
    ("A-tmp-0" : String) ≠ "A-tmp-1" :=
  ⟨rfl, rfl, by decide⟩

/-- Witness for the amended C8 at a concrete collision: searching for
label `A` while `A-tmp-0` exists returns the fresh name `A-tmp-1` of
the required shape, and the repeated call from the post-call state
returns it again. -/
theorem temp_branch_name_provider_spec_witness :
    (fun n => n == "A-tmp-0") "A-tmp-1" = false ∧
    "A-tmp-1" = "A" ++ "-tmp-" ++ toString 1 ∧
    temp_branch_name_provider (fun n => n == "A-tmp-0") "A" 5 1 = some ("A-tmp-1", 1) := by
  have h := temp_branch_name_provider_spec (fun n => n == "A-tmp-0") "A" 5 0 "A-tmp-1" 1 rfl
  exact ⟨h.1, h.2.1, h.2.2.2 5 (by decide)⟩

theorem wait_ok_iff (timeout : Nat) (base : ReplayErr) (polls : List (Bool × Nat)) :
    wait_for_conflict_resolution timeout base polls = .ok () ↔
      ∀ p ∈ polls.takeWhile (fun q => q.1), p.2 ≤ timeout := by
  induction polls with
  | nil => simp [wait_for_conflict_resolution]
  | cons q rest ih =>
    obtain ⟨conf, t⟩ := q
    cases conf with
    | false => simp [wait_for_conflict_resolution, List.takeWhile_cons]
    | true =>
      by_cases ht : t > timeout
      · rw [wait_for_conflict_resolution, if_pos rfl, if_pos ht]
        constructor
        · intro h
          exact absurd h (by simp)
        · intro h
          have := h (true, t) (by simp [List.takeWhile_cons])
          omega
      · rw [wait_for_conflict_resolution, if_pos rfl, if_neg ht]
        rw [ih]
        constructor
        · intro h p hp
          rw [List.takeWhile_cons] at hp
          simp only [if_pos rfl] at hp
          rcases List.mem_cons.mp hp with rfl | hp'
          · simpa using Nat.le_of_not_lt ht
          · exact h p hp'
        · intro h p hp
          apply h
          rw [List.takeWhile_cons]
          simp only [if_pos rfl]
          exact List.mem_cons_of_mem _ hp

theorem wait_error_iff (timeout : Nat) (base : ReplayErr) (polls : List (Bool × Nat)) :
    wait_for_conflict_resolution timeout base polls =
      .error (.conflictTimeout "Conflict not resolved in time" base) ↔
      ∃ p ∈ polls.takeWhile (fun q => q.1), timeout < p.2 := by
  induction polls with
  | nil => simp [wait_for_conflict_resolution]
  | cons q rest ih =>
    obtain ⟨conf, t⟩ := q
    cases conf with
    | false => simp [wait_for_conflict_resolution, List.takeWhile_cons]
    | true =>
      by_cases ht : t > timeout
      · rw [wait_for_conflict_resolution, if_pos rfl, if_pos ht]
        constructor
        · intro _
          exact ⟨(true, t), by simp [List.takeWhile_cons], ht⟩
        · intro _
          rfl
      · rw [wait_for_conflict_resolution, if_pos rfl, if_neg ht]
        rw [ih]
        constructor
        · intro ⟨p, hp, hpt⟩
          refine ⟨p, ?_, hpt⟩
          rw [List.takeWhile_cons]
          simp only [if_pos rfl]
          exact List.mem_cons_of_mem _ hp
        · intro ⟨p, hp, hpt⟩
          rw [List.takeWhile_cons] at hp
          simp only [if_pos rfl] at hp
          rcases List.mem_cons.mp hp with rfl | hp'
          · omega
          · exact ⟨p, hp', hpt⟩

/-- C6: after a failed cherry-pick, (1) a failure with no conflicting
files in the working-tree status re-raises the original error
immediately; with conflicting files present, the engine polls the
status and (2) succeeds — replay resumes — exactly when every poll
that still sees a conflict is within the timeout, while (3) it fails
with the `"Conflict not resolved in time"` error wrapping the original
cherry-pick error exactly when some poll still sees a conflict
strictly after the timeout; and (4) after a step that ends in success
the range loop continues with the next commit. -/
theorem cherrypick_conflict_handling :
    (∀ (timeout : Nat) (commit : String) (polls : List (Bool × Nat)),
      cherrypick_step timeout commit (.fail false polls) =
        .error (.cherrypickFailed commit)) ∧
    (∀ (timeout : Nat) (commit : String) (polls : List (Bool × Nat)),
      cherrypick_step timeout commit (.fail true polls) = .ok () ↔
        ∀ p ∈ polls.takeWhile (fun q => q.1), p.2 ≤ timeout) ∧
    (∀ (timeout : Nat) (commit : String) (polls : List (Bool × Nat)),
      cherrypick_step timeout commit (.fail true polls) =
        .error (.conflictTimeout "Conflict not resolved in time"
          (.cherrypickFailed commit)) ↔
        ∃ p ∈ polls.takeWhile (fun q => q.1), timeout < p.2) ∧
    (∀ (backend : GitBackend) (timeout : Nat) (commit : String) (rest : List String),
      cherrypick_step timeout commit (backend.cherrypick commit) = .ok () →
      cherrypickList backend timeout (commit :: rest) =
        (.cherrypick commit :: (cherrypickList backend timeout rest).1,
          (cherrypickList backend timeout rest).2)) := by
  refine ⟨fun timeout commit polls => rfl, fun timeout commit polls => ?_,
    fun timeout commit polls => ?_, fun backend timeout commit rest h => ?_⟩
  · show wait_for_conflict_resolution timeout (.cherrypickFailed commit) polls = .ok () ↔ _
    exact wait_ok_iff timeout (.cherrypickFailed commit) polls
  · show wait_for_conflict_resolution timeout (.cherrypickFailed commit) polls = _ ↔ _
    exact wait_error_iff timeout (.cherrypickFailed commit) polls
  · rw [cherrypickList, h]

/-- Witness for C6 at concrete inputs (timeout 1 second): a
no-conflict failure re-raises; polls `[(conflict, 0s), (clean)]`
resume; polls `[(conflict, 0s), (conflict, 2s)]` time out wrapping the
original error; and a successful step lets the loop continue. -/
theorem cherrypick_conflict_handling_witness :
    cherrypick_step 1 "x" (.fail false [(true, 0)]) = .error (.cherrypickFailed "x") ∧
    cherrypick_step 1 "x" (.fail true [(true, 0), (false, 0)]) = .ok () ∧
    cherrypick_step 1 "x" (.fail true [(true, 0), (true, 2)]) =
      .error (.conflictTimeout "Conflict not resolved in time" (.cherrypickFailed "x")) ∧
    cherrypickList okBackend 1 ["c1", "c2"] =
      (.cherrypick "c1" :: (cherrypickList okBackend 1 ["c2"]).1,
        (cherrypickList okBackend 1 ["c2"]).2) :=
  ⟨cherrypick_conflict_handling.1 1 "x" [(true, 0)],
   (cherrypick_conflict_handling.2.1 1 "x" [(true, 0), (false, 0)]).mpr (by decide),
   (cherrypick_conflict_handling.2.2.1 1 "x" [(true, 0), (true, 2)]).mpr (by decide),
   cherrypick_conflict_handling.2.2.2 okBackend 1 "c1" ["c2"] (by rfl)⟩

theorem cherrypickList_picks (backend : GitBackend) (timeout : Nat) :
    ∀ l : List String,
      (cherrypickList backend timeout l).1.filterMap pickTarget =
        l.take ((cherrypickList backend timeout l).1.filterMap pickTarget).length ∧
      ((cherrypickList backend timeout l).2 = none →
        (cherrypickList backend timeout l).1.filterMap pickTarget = l) := by
  intro l
  induction l with
  | nil => simp [cherrypickList]
  | cons c rest ih =>
    rw [cherrypickList]
    match hstep : cherrypick_step timeout c (backend.cherrypick c) with
    | .ok () =>
      simp only [List.filterMap_cons]
      rw [show pickTarget (.cherrypick c) = some c from rfl]
      constructor
      · rw [List.length_cons, List.take_succ_cons]
        exact congrArg (c :: ·) ih.1
      · intro herr
        exact congrArg (c :: ·) (ih.2 herr)
    | .error e =>
      refine ⟨rfl, ?_⟩
      intro herr
      exact absurd herr (by simp)

/-- C7: `git_cherrypick_range` first queries the backend for the
commit range between the segment's start hash and its end label (the
backend returns it newest-first), then issues cherry-picks whose
targets are a prefix of the reversed (oldest-first) hash list — the
whole reversed list when no pick fails fatally. -/
theorem git_cherrypick_range_order (backend : GitBackend) (segment : Segment)
    (timeout : Nat) :
    (git_cherrypick_range backend segment timeout).1.head? =
      some (.log_range segment.start_full_hash segment.end_ref) ∧
    (git_cherrypick_range backend segment timeout).1.filterMap pickTarget =
      ((backend.log_range segment.start_full_hash segment.end_ref).map
        (fun log => log.full_hash)).reverse.take
        ((git_cherrypick_range backend segment timeout).1.filterMap pickTarget).length ∧
    ((git_cherrypick_range backend segment timeout).2 = none →
      (git_cherrypick_range backend segment timeout).1.filterMap pickTarget =
        ((backend.log_range segment.start_full_hash segment.end_ref).map
          (fun log => log.full_hash)).reverse) := by
  have hlist := cherrypickList_picks backend timeout
    ((backend.log_range segment.start_full_hash segment.end_ref).map
      (fun log => log.full_hash)).reverse
  refine ⟨rfl, ?_, ?_⟩
  · show (GitCall.log_range segment.start_full_hash segment.end_ref ::
      (cherrypickList backend timeout _).1).filterMap pickTarget = _
    rw [List.filterMap_cons]
    exact hlist.1
  · intro herr
    show (GitCall.log_range segment.start_full_hash segment.end_ref ::
      (cherrypickList backend timeout _).1).filterMap pickTarget = _
    rw [List.filterMap_cons]
    exact hlist.2 herr

/-- Witness for C7: on `okBackend` the trace is the range query
followed by the cherry-picks in oldest-first order, the full reversed
range. -/
theorem git_cherrypick_range_order_witness :
    (git_cherrypick_range okBackend seg0 10).1 =
      [.log_range "anc" "B", .cherrypick "c1", .cherrypick "c2"] ∧
    (git_cherrypick_range okBackend seg0 10).2 = none ∧
    (git_cherrypick_range okBackend seg0 10).1.filterMap pickTarget =
      ((okBackend.log_range seg0.start_full_hash seg0.end_ref).map
        (fun log => log.full_hash)).reverse :=
  ⟨rfl, rfl, (git_cherrypick_range_order okBackend seg0 10).2.2 rfl⟩

theorem dictContains_dictUpdate {α : Type} (m : PyDict α) (k : String) (f : α → α)
    (k' : String) : dictContains (dictUpdate m k f) k' = dictContains m k' := by
  induction m with
  | nil => rfl
  | cons p ps ih =>
    show ((if (p.1 == k) = true then (p.1, f p.2) else p) :: dictUpdate ps k f).any
        (fun q => q.1 == k') =
      ((p :: ps).any (fun q => q.1 == k'))
    rw [List.any_cons, List.any_cons]
    have hfst : (if (p.1 == k) = true then (p.1, f p.2) else p).1 = p.1 := by
      split <;> rfl
    rw [hfst]
    exact congrArg (_ || ·) ih

theorem dictGet?_cons {α : Type} (p : String × α) (ps : PyDict α) (k : String) :
    dictGet? (p :: ps) k =
      if (p.1 == k) = true then some p.2 else dictGet? ps k := by
  rw [dictGet?, dictGet?]
  by_cases hp : (p.1 == k) = true
  · rw [if_pos hp]
    have hfind : List.find? (fun q => q.1 == k) (p :: ps) = some p :=
      List.find?_cons_of_pos _ hp
    rw [hfind]
    rfl
  · rw [if_neg hp]
    have hfind : List.find? (fun q => q.1 == k) (p :: ps) =
        List.find? (fun q => q.1 == k) ps :=
      List.find?_cons_of_neg _ (by simpa using hp)
    rw [hfind]

theorem dictContains_isSome {α : Type} (m : PyDict α) (k : String) :
    dictContains m k = (dictGet? m k).isSome := by
  induction m with
  | nil => rfl
  | cons p ps ih =>
    rw [show dictContains (p :: ps) k = ((p.1 == k) || dictContains ps k) from rfl,
      dictGet?_cons]
    by_cases hp : (p.1 == k) = true
    · rw [if_pos hp, hp]
      simp
    · rw [if_neg hp, Bool.eq_false_iff.mpr hp, Bool.false_or]
      exact ih

theorem linkParentHashes_contains (ch : String) :
    ∀ (ps : List String) (m m' : PyDict CommitRec),
      linkParentHashes ch ps m = .ok m' →
      ∀ k, dictContains m' k = dictContains m k := by
  intro ps
  induction ps with
  | nil =>
    intro m m' h k
    rw [linkParentHashes] at h
    cases h
    rfl
  | cons p rest ih =>
    intro m m' h k
    rw [linkParentHashes] at h
    match hg : dictGet? m p with
    | none => rw [hg] at h; exact absurd h (by simp)
    | some v =>
      rw [hg] at h
      rw [ih _ _ h k, dictContains_dictUpdate]

theorem linkParentHashes_missing (ch : String) :
    ∀ (ps : List String) (m : PyDict CommitRec),
      (∃ p ∈ ps, dictContains m p = false) →
      ∃ p', dictContains m p' = false ∧
        linkParentHashes ch ps m = .error (.keyError p') := by
  intro ps
  induction ps with
  | nil =>
    intro m h
    simp at h
  | cons p rest ih =>
    intro m h
    by_cases hc : dictContains m p = true
    · have hget : (dictGet? m p).isSome := by rw [← dictContains_isSome]; exact hc
      match hg : dictGet? m p with
      | none => rw [hg] at hget; simp at hget
      | some v =>
        have hex : ∃ q ∈ rest, dictContains m q = false := by
          obtain ⟨q, hq, hqc⟩ := h
          rcases List.mem_cons.mp hq with rfl | hq'
          · rw [hc] at hqc; cases hqc
          · exact ⟨q, hq', hqc⟩
        have hex' : ∃ q ∈ rest, dictContains
            (dictUpdate m p (fun r => { r with child_hashes := r.child_hashes ++ [ch] }))
              q = false := by
          obtain ⟨q, hq, hqc⟩ := hex
          exact ⟨q, hq, by rw [dictContains_dictUpdate]; exact hqc⟩
        obtain ⟨p', hp'c, hp'res⟩ := ih _ hex'
        refine ⟨p', ?_, ?_⟩
        · rw [dictContains_dictUpdate] at hp'c
          exact hp'c
        · rw [linkParentHashes, hg]
          exact hp'res
    · have hc' : dictContains m p = false := Bool.eq_false_iff.mpr hc
      have hg : dictGet? m p = none := by
        have := dictContains_isSome m p
        rw [hc'] at this
        match hgg : dictGet? m p with
        | none => rfl
        | some v => rw [hgg] at this; simp at this
      exact ⟨p, hc', by rw [linkParentHashes, hg]⟩

theorem linkParentHashes_total (ch : String) :
    ∀ (ps : List String) (m : PyDict CommitRec),
      (∀ p ∈ ps, dictContains m p = true) →
      ∃ m', linkParentHashes ch ps m = .ok m' := by
  intro ps
  induction ps with
  | nil => intro m _; exact ⟨m, rfl⟩
  | cons p rest ih =>
    intro m h
    have hc : dictContains m p = true := h p (by simp)
    have hget : (dictGet? m p).isSome := by rw [← dictContains_isSome]; exact hc
    match hg : dictGet? m p with
    | none => rw [hg] at hget; simp at hget
    | some v =>
      have : ∀ q ∈ rest, dictContains
          (dictUpdate m p (fun r => { r with child_hashes := r.child_hashes ++ [ch] }))
            q = true := by
        intro q hq
        rw [dictContains_dictUpdate]
        exact h q (List.mem_cons_of_mem _ hq)
      obtain ⟨m', hm'⟩ := ih _ this
      refine ⟨m', ?_⟩
      rw [linkParentHashes, hg]
      exact hm'

theorem linkParents_cons_none (c : GitLog) (rest : List GitLog) (m : PyDict CommitRec)
    (hg : dictGet? m c.full_hash = none) :
    linkParents (c :: rest) m = .error (.keyError c.full_hash) := by
  rw [linkParents, hg]

theorem linkParents_cons_some (c : GitLog) (rest : List GitLog) (m : PyDict CommitRec)
    (v : CommitRec) (hg : dictGet? m c.full_hash = some v) :
    linkParents (c :: rest) m =
      match linkParentHashes c.full_hash c.parent_hashes
        (if c.parent_hashes.length > 1 then
          dictUpdate m c.full_hash (fun r => { r with is_merger := true })
        else m) with
      | .error e => .error e
      | .ok m2 => linkParents rest m2 := by
  rw [linkParents, hg]

theorem linkParents_missing :
    ∀ (logs : List GitLog) (m : PyDict CommitRec),
      (∃ log ∈ logs, ∃ p ∈ log.parent_hashes, dictContains m p = false) →
      ∃ p', dictContains m p' = false ∧
        linkParents logs m = .error (.keyError p') := by
  intro logs
  induction logs with
  | nil =>
    intro m h
    simp at h
  | cons c rest ih =>
    intro m h
    by_cases hc : dictContains m c.full_hash = true
    · have hget : (dictGet? m c.full_hash).isSome := by rw [← dictContains_isSome]; exact hc
      match hg : dictGet? m c.full_hash with
      | none => rw [hg] at hget; simp at hget
      | some v =>
        -- the conditional merger flag keeps the key set unchanged
        have hm1 : ∀ k, dictContains (if c.parent_hashes.length > 1 then
            dictUpdate m c.full_hash (fun r => { r with is_merger := true })
          else m) k = dictContains m k := by
          intro k
          split
          · rw [dictContains_dictUpdate]
          · rfl
        by_cases hmiss : ∃ p ∈ c.parent_hashes, dictContains
            (if c.parent_hashes.length > 1 then
              dictUpdate m c.full_hash (fun r => { r with is_merger := true })
            else m) p = false
        · obtain ⟨p', hp'c, hp'res⟩ := linkParentHashes_missing c.full_hash _ _ hmiss
          refine ⟨p', by rw [← hm1 p']; exact hp'c, ?_⟩
          rw [linkParents_cons_some c rest m v hg, hp'res]
        · have hall : ∀ p ∈ c.parent_hashes, dictContains
              (if c.parent_hashes.length > 1 then
                dictUpdate m c.full_hash (fun r => { r with is_merger := true })
              else m) p = true := by
            intro p hp
            by_contra hpc
            exact hmiss ⟨p, hp, Bool.eq_false_iff.mpr hpc⟩
          obtain ⟨m2, hm2⟩ := linkParentHashes_total c.full_hash _ _ hall
          have hm2c : ∀ k, dictContains m2 k = dictContains m k := by
            intro k
            rw [linkParentHashes_contains c.full_hash _ _ _ hm2 k, hm1 k]
          have hex : ∃ log ∈ rest, ∃ p ∈ log.parent_hashes, dictContains m2 p = false := by
            obtain ⟨lg, hlg, p, hp, hpc⟩ := h
            rcases List.mem_cons.mp hlg with rfl | hlg'
            · exfalso
              apply hmiss
              exact ⟨p, hp, by rw [hm1 p]; exact hpc⟩
            · exact ⟨lg, hlg', p, hp, by rw [hm2c p]; exact hpc⟩
          obtain ⟨p', hp'c, hp'res⟩ := ih _ hex
          refine ⟨p', by rw [← hm2c p']; exact hp'c, ?_⟩
          rw [linkParents_cons_some c rest m v hg, hm2]
          exact hp'res
    · have hc' : dictContains m c.full_hash = false := Bool.eq_false_iff.mpr hc
      have hg : dictGet? m c.full_hash = none := by
        have := dictContains_isSome m c.full_hash
        rw [hc'] at this
        match hgg : dictGet? m c.full_hash with
        | none => rfl
        | some v => rw [hgg] at this; simp at this
      exact ⟨c.full_hash, hc', linkParents_cons_none c rest m hg⟩

theorem dictContains_map_set {α : Type} (m : PyDict α) (k : String) (v : α) (k' : String) :
    dictContains (m.map fun p => if (p.1 == k) = true then (p.1, v) else p) k' =
      dictContains m k' := by
  induction m with
  | nil => rfl
  | cons p ps ih =>
    rw [List.map_cons]
    show ((if (p.1 == k) = true then (p.1, v) else p) ::
        ps.map fun q => if (q.1 == k) = true then (q.1, v) else q).any
        (fun q => q.1 == k') =
      ((p :: ps).any (fun q => q.1 == k'))
    rw [List.any_cons, List.any_cons]
    have hfst : (if (p.1 == k) = true then (p.1, v) else p).1 = p.1 := by
      split <;> rfl
    rw [hfst]
    exact congrArg (_ || ·) ih

theorem dictContains_dictSet {α : Type} (m : PyDict α) (k : String) (v : α) (k' : String) :
    dictContains (dictSet m k v) k' = (dictContains m k' || (k == k')) := by
  rw [dictSet]
  by_cases hm : dictContains m k = true
  · rw [if_pos hm]
    rw [dictContains_map_set]
    by_cases hk : (k == k') = true
    · have hkk : k = k' := eq_of_beq hk
      subst hkk
      simp [hm, hk]
    · rw [Bool.eq_false_iff.mpr hk, Bool.or_false]
  · rw [if_neg hm]
    show (m ++ [(k, v)]).any (fun q => q.1 == k') = _
    rw [List.any_append, List.any_cons, List.any_nil, Bool.or_false]
    rfl

theorem dictContains_initCommitRecs :
    ∀ (logs : List GitLog) (m : PyDict CommitRec) (k : String),
      dictContains (initCommitRecs logs m) k =
        (dictContains m k || logs.any (fun d => d.full_hash == k)) := by
  intro logs
  induction logs with
  | nil =>
    intro m k
    rw [initCommitRecs, List.any_nil, Bool.or_false]
  | cons d rest ih =>
    intro m k
    rw [initCommitRecs, ih, dictContains_dictSet, List.any_cons, Bool.or_assoc]

/-- C10: whenever some commit returned by the range queries has a
parent hash that is the hash of no commit in the deduplication map
(neither the ancestor's own log nor any range log), `build_tree` fails
with an unhandled key-lookup error — a `KeyError`, not a
structural-error diagnostic of the Verifier.  Such inputs exist: on
`mergeBackend`, whose range holds a merge commit with a parent
`outside` leaving the range, the builder crashes with
`KeyError("outside")`, and the update flow dies on it before
`verify_tree` can report the merge commit. -/
theorem build_tree_missing_parent :
    (∀ (backend : GitBackend) (ancestor : String) (branches branch_names : List String),
      (∃ log ∈ buildLogs backend ancestor branches branch_names,
        ∃ p ∈ log.parent_hashes,
          ∀ log' ∈ buildLogs backend ancestor branches branch_names,
            log'.full_hash ≠ p) →
      ∃ p', (∀ log' ∈ buildLogs backend ancestor branches branch_names,
          log'.full_hash ≠ p') ∧
        build_tree backend ancestor branches branch_names = .error (.keyError p')) ∧
    (∃ log ∈ mergeBackend.log_range "anc" "b", log.parent_hashes.length > 1) ∧
    build_tree mergeBackend "anc" ["b"] [] = .error (.keyError "outside") ∧
    (process_update mergeBackend ["b"] 10 10).2 = some (.buildErr (.keyError "outside")) := by
  refine ⟨?_, by decide, by rfl, by rfl⟩
  intro backend anc branches names hex
  have hkeys : ∀ k, dictContains
      (initCommitRecs (buildLogs backend anc branches names) []) k =
      (buildLogs backend anc branches names).any (fun d => d.full_hash == k) := by
    intro k
    rw [dictContains_initCommitRecs]
    show (false || _) = _
    rw [Bool.false_or]
  obtain ⟨lg, hlg, p, hp, hall⟩ := hex
  have hcont : dictContains
      (initCommitRecs (buildLogs backend anc branches names) []) p = false := by
    rw [hkeys]
    rw [List.any_eq_false]
    intro d hd
    simpa using hall d hd
  obtain ⟨p', hp'c, hp'res⟩ := linkParents_missing _ _ ⟨lg, hlg, p, hp, hcont⟩
  refine ⟨p', ?_, ?_⟩
  · intro log' hlog'
    rw [hkeys] at hp'c
    have := List.any_eq_false.mp hp'c log' hlog'
    simpa using this
  · have hun : build_tree backend anc branches names =
        match linkParents (buildLogs backend anc branches names)
          (initCommitRecs (buildLogs backend anc branches names) []) with
        | .error e => .error e
        | .ok recs => reify recs (recs.length + 1) anc := rfl
    rw [hun, hp'res]

/-- Witness for C10: on `mergeBackend` the missing-parent hypothesis
holds concretely, and the builder fails with a key-lookup error. -/
theorem build_tree_missing_parent_witness :
    (∃ log ∈ buildLogs mergeBackend "anc" ["b"] [], ∃ p ∈ log.parent_hashes,
      ∀ log' ∈ buildLogs mergeBackend "anc" ["b"] [], log'.full_hash ≠ p) ∧
    (∃ p', (∀ log' ∈ buildLogs mergeBackend "anc" ["b"] [], log'.full_hash ≠ p') ∧
      build_tree mergeBackend "anc" ["b"] [] = .error (.keyError p')) :=
  ⟨by decide, build_tree_missing_parent.1 mergeBackend "anc" ["b"] [] (by decide)⟩

theorem build_tree_calls_readonly (backend : GitBackend) (ancestor : String)
    (branches branch_names : List String) :
    ∀ call ∈ build_tree_calls backend ancestor branches branch_names,
      call.isMutation = false := by
  intro call hc
  simp only [build_tree_calls] at hc
  rcases List.mem_cons.mp hc with rfl | hc'
  · rfl
  · rcases List.mem_append.mp hc' with h1 | h2
    · obtain ⟨nb, -, rfl⟩ := List.mem_map.mp h1
      rfl
    · obtain ⟨nb, -, rfl⟩ := List.mem_map.mp h2
      rfl

/-- C4: in each of the three flows, when verification raises a
structural error the whole recorded backend trace consists of
read-only calls — no mutating call (checkout, branch creation,
cherry-pick, branch delete, branch rename) has been issued, so the
local repository is unchanged. -/
theorem structural_error_before_mutation :
    (∀ (backend : GitBackend) (branches : List String) (timeout fuel : Nat)
        (m : String) (call : GitCall),
      (process_update backend branches timeout fuel).2 = some (.verifyErr m) →
      call ∈ (process_update backend branches timeout fuel).1 →
      call.isMutation = false) ∧
    (∀ (backend : GitBackend) (branches : List String) (base_branch : String)
        (timeout fuel : Nat) (debug_tree : Bool) (m : String) (call : GitCall),
      (rebase_with_root backend branches base_branch timeout fuel debug_tree).2 =
        some (.verifyErr m) →
      call ∈ (rebase_with_root backend branches base_branch timeout fuel debug_tree).1 →
      call.isMutation = false) ∧
    (∀ (backend : GitBackend) (branches : List String) (base_branch : String)
        (timeout fuel : Nat) (debug_tree : Bool) (m : String) (call : GitCall),
      (rebase_without_root backend branches base_branch timeout fuel debug_tree).2 =
        some (.verifyErr m) →
      call ∈ (rebase_without_root backend branches base_branch timeout fuel debug_tree).1 →
      call.isMutation = false) := by
  refine ⟨?_, ?_, ?_⟩
  · intro backend branches timeout fuel m call
    simp only [process_update]
    split
    · intro h _
      simp at h
    · split
      · intro _ hc
        rcases List.mem_append.mp hc with h1 | h2
        · rcases List.mem_cons.mp h1 with rfl | h1'
          · rfl
          · rcases List.mem_cons.mp h1' with rfl | h1''
            · rfl
            · simp at h1''
        · exact build_tree_calls_readonly _ _ _ _ call h2
      · split
        · intro h _
          simp at h
        · split
          · intro _ hc
            rcases List.mem_append.mp hc with h1 | h2
            · rcases List.mem_append.mp h1 with h3 | h4
              · rcases List.mem_cons.mp h3 with rfl | h3'
                · rfl
                · rcases List.mem_cons.mp h3' with rfl | h3''
                  · rfl
                  · simp at h3''
              · exact build_tree_calls_readonly _ _ _ _ call h4
            · exact build_tree_calls_readonly _ _ _ _ call h2
          · split
            · intro h _
              simp at h
            · split
              · intro h _
                simp at h
              · intro h _
                simp at h
  · intro backend branches base_branch timeout fuel debug_tree m call
    simp only [rebase_with_root]
    split
    · intro h _
      simp at h
    · split
      · intro _ hc
        rcases List.mem_append.mp hc with h1 | h2
        · rcases List.mem_cons.mp h1 with rfl | h1'
          · rfl
          · simp at h1'
        · exact build_tree_calls_readonly _ _ _ _ call h2
      · split
        · intro h _
          simp at h
        · split
          · split
            · intro h _
              simp at h
            · intro h _
              simp at h
          · intro h _
            simp at h
  · intro backend branches base_branch timeout fuel debug_tree m call
    simp only [rebase_without_root]
    split
    · intro h _
      simp at h
    · split
      · intro _ hc
        rcases List.mem_append.mp hc with h1 | h2
        · rcases List.mem_cons.mp h1 with rfl | h1'
          · rfl
          · simp at h1'
        · exact build_tree_calls_readonly _ _ _ _ call h2
      · split
        · intro h _
          simp at h
        · split
          · intro h _
            simp at h
          · split
            · split
              · intro h _
                simp at h
              · intro h _
                simp at h
            · intro h _
              simp at h

/-- Witness for C4: on `verifyFailBackend` the update flow stops with
the Verifier's merge-commit error and its whole trace is free of
mutating calls. -/
theorem structural_error_before_mutation_witness :
    (process_update verifyFailBackend ["b"] 10 10).2 =
      some (.verifyErr (mergeErrorMsg "m")) ∧
    ((process_update verifyFailBackend ["b"] 10 10).1.all
      fun c => c.isMutation == false) = true := by
  refine ⟨by rfl, List.all_eq_true.mpr ?_⟩
  intro c hc
  have := structural_error_before_mutation.1 verifyFailBackend ["b"] 10 10
    (mergeErrorMsg "m") c (by rfl) hc
  simp [this]

theorem cherrypickList_trace (backend : GitBackend) (timeout : Nat) :
    ∀ (l : List String), ∀ c ∈ (cherrypickList backend timeout l).1,
      ∃ h, c = .cherrypick h := by
  intro l
  induction l with
  | nil =>
    intro c hc
    simp [cherrypickList] at hc
  | cons x rest ih =>
    intro c hc
    rw [cherrypickList] at hc
    split at hc
    · have hc2 : c ∈ GitCall.cherrypick x :: (cherrypickList backend timeout rest).1 := hc
      rcases List.mem_cons.mp hc2 with rfl | hc'
      · exact ⟨x, rfl⟩
      · exact ih c hc'
    · have hc2 : c ∈ [GitCall.cherrypick x] := hc
      have hce : c = GitCall.cherrypick x := by simpa using hc2
      exact ⟨x, hce⟩

theorem git_cherrypick_range_trace (backend : GitBackend) (segment : Segment)
    (timeout : Nat) :
    ∀ c ∈ (git_cherrypick_range backend segment timeout).1,
      c.isDelete = false ∧ c.isRename = false := by
  intro c hc
  rcases List.mem_cons.mp hc with rfl | hc'
  · exact ⟨rfl, rfl⟩
  · obtain ⟨h, rfl⟩ := cherrypickList_trace backend timeout _ c hc'
    exact ⟨rfl, rfl⟩

theorem mem_dictSet {α : Type} (m : PyDict α) (k : String) (v : α) (p : String × α)
    (hp : p ∈ dictSet m k v) : p ∈ m ∨ p = (k, v) := by
  rw [dictSet] at hp
  split at hp
  · obtain ⟨q, hq, hqe⟩ := List.mem_map.mp hp
    by_cases hqk : (q.1 == k) = true
    · rw [if_pos hqk] at hqe
      right
      rw [← hqe, eq_of_beq hqk]
    · rw [if_neg hqk] at hqe
      left
      rw [← hqe]
      exact hq
  · rcases List.mem_append.mp hp with h | h
    · exact Or.inl h
    · right
      simpa using h

theorem update_segments_trace (backend : GitBackend) (timeout fuel : Nat) :
    ∀ (segs : List Segment) (st : ReplayState),
      (∀ c ∈ (update_segments backend timeout fuel segs st).1,
        c.isDelete = false ∧ c.isRename = false) ∧
      ((update_segments backend timeout fuel segs st).2.2 = none →
        ∀ p ∈ (update_segments backend timeout fuel segs st).2.1.old_to_new_name_map,
          p ∈ st.old_to_new_name_map ∨
          ∃ sr, GitCall.branch p.2 sr ∈ (update_segments backend timeout fuel segs st).1) := by
  intro segs
  induction segs with
  | nil =>
    intro st
    refine ⟨?_, ?_⟩
    · intro c hc
      simp [update_segments] at hc
    · intro _ p hp
      exact Or.inl hp
  | cons seg rest ih =>
    intro st
    simp only [update_segments]
    split
    · -- end label already mapped: git checkout
      split
      · -- cherry-pick range failed
        refine ⟨?_, ?_⟩
        · intro c hc
          rcases List.mem_cons.mp hc with rfl | hc'
          · exact ⟨rfl, rfl⟩
          · exact git_cherrypick_range_trace backend seg timeout c hc'
        · intro h
          simp at h
      · -- cherry-pick range succeeded, loop continues
        refine ⟨?_, ?_⟩
        · intro c hc
          rcases List.mem_cons.mp hc with rfl | hc'
          · exact ⟨rfl, rfl⟩
          · rcases List.mem_append.mp hc' with h1 | h2
            · exact git_cherrypick_range_trace backend seg timeout c h1
            · exact (ih st).1 c h2
        · intro herr p hp
          rcases (ih st).2 herr p hp with h | ⟨sr, hsr⟩
          · exact Or.inl h
          · exact Or.inr ⟨sr, List.mem_cons_of_mem _ (List.mem_append_right _ hsr)⟩
    · -- end label not mapped yet: allocate a temporary name
      split
      · -- name search exhausted
        refine ⟨?_, ?_⟩
        · intro c hc
          simp at hc
        · intro h
          simp at h
      · split
        · -- start ref resolves to None: TypeError before any git call
          refine ⟨?_, ?_⟩
          · intro c hc
            simp at hc
          · intro h
            simp at h
        · split
          · -- cherry-pick range failed after branch creation
            refine ⟨?_, ?_⟩
            · intro c hc
              rcases List.mem_cons.mp hc with rfl | hc'
              · exact ⟨rfl, rfl⟩
              · exact git_cherrypick_range_trace backend seg timeout c hc'
            · intro h
              simp at h
          · -- branch created and replayed, loop continues
            refine ⟨?_, ?_⟩
            · intro c hc
              rcases List.mem_cons.mp hc with rfl | hc'
              · exact ⟨rfl, rfl⟩
              · rcases List.mem_append.mp hc' with h1 | h2
                · exact git_cherrypick_range_trace backend seg timeout c h1
                · exact (ih _).1 c h2
            · intro herr p hp
              rcases (ih _).2 herr p hp with h | ⟨sr', hsr'⟩
              · rcases mem_dictSet _ _ _ p h with h' | h'
                · exact Or.inl h'
                · subst h'
                  exact Or.inr ⟨_, List.mem_cons_self _ _⟩
              · exact Or.inr ⟨sr', List.mem_cons_of_mem _ (List.mem_append_right _ hsr')⟩

theorem rebase_segments_trace (backend : GitBackend) (timeout fuel : Nat)
    (root_full_hash base_branch : String) :
    ∀ (segs : List Segment) (st : ReplayState),
      (∀ c ∈ (rebase_segments backend timeout fuel root_full_hash base_branch segs st).1,
        c.isDelete = false ∧ c.isRename = false) ∧
      ((rebase_segments backend timeout fuel root_full_hash base_branch segs st).2.2 =
          none →
        ∀ p ∈ (rebase_segments backend timeout fuel root_full_hash base_branch
            segs st).2.1.old_to_new_name_map,
          p ∈ st.old_to_new_name_map ∨
          ∃ sr, GitCall.branch p.2 sr ∈
            (rebase_segments backend timeout fuel root_full_hash base_branch segs st).1) := by
  intro segs
  induction segs with
  | nil =>
    intro st
    refine ⟨?_, ?_⟩
    · intro c hc
      simp [rebase_segments] at hc
    · intro _ p hp
      exact Or.inl hp
  | cons seg rest ih =>
    intro st
    simp only [rebase_segments]
    split
    · split
      · refine ⟨?_, ?_⟩
        · intro c hc
          rcases List.mem_cons.mp hc with rfl | hc'
          · exact ⟨rfl, rfl⟩
          · exact git_cherrypick_range_trace backend seg timeout c hc'
        · intro h
          simp at h
      · refine ⟨?_, ?_⟩
        · intro c hc
          rcases List.mem_cons.mp hc with rfl | hc'
          · exact ⟨rfl, rfl⟩
          · rcases List.mem_append.mp hc' with h1 | h2
            · exact git_cherrypick_range_trace backend seg timeout c h1
            · exact (ih st).1 c h2
        · intro herr p hp
          rcases (ih st).2 herr p hp with h | ⟨sr, hsr⟩
          · exact Or.inl h
          · exact Or.inr ⟨sr, List.mem_cons_of_mem _ (List.mem_append_right _ hsr)⟩
    · split
      · refine ⟨?_, ?_⟩
        · intro c hc
          simp at hc
        · intro h
          simp at h
      · split
        · refine ⟨?_, ?_⟩
          · intro c hc
            simp at hc
          · intro h
            simp at h
        · split
          · refine ⟨?_, ?_⟩
            · intro c hc
              rcases List.mem_cons.mp hc with rfl | hc'
              · exact ⟨rfl, rfl⟩
              · exact git_cherrypick_range_trace backend seg timeout c hc'
            · intro h
              simp at h
          · refine ⟨?_, ?_⟩
            · intro c hc
              rcases List.mem_cons.mp hc with rfl | hc'
              · exact ⟨rfl, rfl⟩
              · rcases List.mem_append.mp hc' with h1 | h2
                · exact git_cherrypick_range_trace backend seg timeout c h1
                · exact (ih _).1 c h2
            · intro herr p hp
              rcases (ih _).2 herr p hp with h | ⟨sr', hsr'⟩
              · rcases mem_dictSet _ _ _ p h with h' | h'
                · exact Or.inl h'
                · subst h'
                  exact Or.inr ⟨_, List.mem_cons_self _ _⟩
              · exact Or.inr ⟨sr', List.mem_cons_of_mem _ (List.mem_append_right _ hsr')⟩

theorem isMutation_false_phases (c : GitCall) (h : c.isMutation = false) :
    c.isDelete = false ∧ c.isRename = false := by
  cases c <;> simp_all [GitCall.isMutation, GitCall.isDelete, GitCall.isRename]

theorem finishRenames_deletes (st : ReplayState) :
    ∀ c ∈ st.old_to_new_name_map.map (fun p => GitCall.delete_branch p.1),
      c.isDelete = true := by
  intro c hc
  obtain ⟨p, -, rfl⟩ := List.mem_map.mp hc
  rfl

theorem finishRenames_renames (st : ReplayState) :
    ∀ c ∈ st.old_to_new_name_map.map (fun p => GitCall.rename_branch p.2 p.1),
      c.isRename = true := by
  intro c hc
  obtain ⟨p, -, rfl⟩ := List.mem_map.mp hc
  rfl

theorem update_local_struct_err (backend : GitBackend) (required_tree : Commit)
    (timeout fuel : Nat) (e : ReplayErr)
    (h : (update_segments backend timeout fuel (bfs_segments required_tree)
        ⟨[], 0⟩).2.2 = some e) :
    update_local_struct backend required_tree timeout fuel =
      ((update_segments backend timeout fuel (bfs_segments required_tree) ⟨[], 0⟩).1,
        some e) := by
  simp only [update_local_struct, h]

theorem update_local_struct_ok (backend : GitBackend) (required_tree : Commit)
    (timeout fuel : Nat)
    (h : (update_segments backend timeout fuel (bfs_segments required_tree)
        ⟨[], 0⟩).2.2 = none) :
    update_local_struct backend required_tree timeout fuel =
      ((update_segments backend timeout fuel (bfs_segments required_tree) ⟨[], 0⟩).1 ++
        finishRenames
          (update_segments backend timeout fuel (bfs_segments required_tree) ⟨[], 0⟩).2.1,
        none) := by
  simp only [update_local_struct, h]

theorem rebase_with_root_unfold_build_err (backend : GitBackend) (branches : List String)
    (base_branch : String) (timeout fuel : Nat) (debug_tree : Bool) (e : BuildErr)
    (hb : build_tree backend (backend.common_ancestor (branches ++ [base_branch]))
      branches [] = .error e) :
    rebase_with_root backend branches base_branch timeout fuel debug_tree =
      ([.common_ancestor (branches ++ [base_branch])] ++
        build_tree_calls backend (backend.common_ancestor (branches ++ [base_branch]))
          branches [],
        some (.buildErr e)) := by
  simp only [rebase_with_root, hb]

theorem rebase_with_root_unfold_verify_err (backend : GitBackend) (branches : List String)
    (base_branch : String) (timeout fuel : Nat) (debug_tree : Bool) (lt : Commit)
    (m : String)
    (hb : build_tree backend (backend.common_ancestor (branches ++ [base_branch]))
      branches [] = .ok lt)
    (hv : verify_tree lt = .error m) :
    rebase_with_root backend branches base_branch timeout fuel debug_tree =
      ([.common_ancestor (branches ++ [base_branch])] ++
        build_tree_calls backend (backend.common_ancestor (branches ++ [base_branch]))
          branches [],
        some (.verifyErr m)) := by
  simp only [rebase_with_root, hb, hv]

theorem rebase_with_root_unfold_replay_err (backend : GitBackend) (branches : List String)
    (base_branch : String) (timeout fuel : Nat) (debug_tree : Bool) (lt : Commit)
    (e : ReplayErr)
    (hb : build_tree backend (backend.common_ancestor (branches ++ [base_branch]))
      branches [] = .ok lt)
    (hv : verify_tree lt = .ok ())
    (hr : (rebase_segments backend timeout fuel lt.full_hash base_branch
      (bfs_segments lt) ⟨[], 0⟩).2.2 = some e) :
    rebase_with_root backend branches base_branch timeout fuel debug_tree =
      ([.common_ancestor (branches ++ [base_branch])] ++
        build_tree_calls backend (backend.common_ancestor (branches ++ [base_branch]))
          branches [] ++
        (rebase_segments backend timeout fuel lt.full_hash base_branch
          (bfs_segments lt) ⟨[], 0⟩).1,
        some (.replayErr e)) := by
  simp only [rebase_with_root, hb, hv, hr]

theorem rebase_with_root_unfold_ok_nodebug (backend : GitBackend) (branches : List String)
    (base_branch : String) (timeout fuel : Nat) (lt : Commit)
    (hb : build_tree backend (backend.common_ancestor (branches ++ [base_branch]))
      branches [] = .ok lt)
    (hv : verify_tree lt = .ok ())
    (hr : (rebase_segments backend timeout fuel lt.full_hash base_branch
      (bfs_segments lt) ⟨[], 0⟩).2.2 = none) :
    rebase_with_root backend branches base_branch timeout fuel false =
      ([.common_ancestor (branches ++ [base_branch])] ++
        build_tree_calls backend (backend.common_ancestor (branches ++ [base_branch]))
          branches [] ++
        ((rebase_segments backend timeout fuel lt.full_hash base_branch
            (bfs_segments lt) ⟨[], 0⟩).1 ++
          finishRenames (rebase_segments backend timeout fuel lt.full_hash base_branch
            (bfs_segments lt) ⟨[], 0⟩).2.1),
        none) := by
  simp only [rebase_with_root, hb, hv, hr, Bool.false_eq_true, if_false]

theorem rebase_with_root_unfold_ok_debug (backend : GitBackend) (branches : List String)
    (base_branch : String) (timeout fuel : Nat) (lt : Commit)
    (hb : build_tree backend (backend.common_ancestor (branches ++ [base_branch]))
      branches [] = .ok lt)
    (hv : verify_tree lt = .ok ())
    (hr : (rebase_segments backend timeout fuel lt.full_hash base_branch
      (bfs_segments lt) ⟨[], 0⟩).2.2 = none) :
    rebase_with_root backend branches base_branch timeout fuel true =
      ([.common_ancestor (branches ++ [base_branch])] ++
        build_tree_calls backend (backend.common_ancestor (branches ++ [base_branch]))
          branches [] ++
        ((rebase_segments backend timeout fuel lt.full_hash base_branch
            (bfs_segments lt) ⟨[], 0⟩).1 ++
          finishRenames (rebase_segments backend timeout fuel lt.full_hash base_branch
            (bfs_segments lt) ⟨[], 0⟩).2.1) ++
        build_tree_calls backend (backend.common_ancestor (branches ++ [base_branch]))
          branches [],
        none) := by
  simp only [rebase_with_root, hb, hv, hr, if_true]

theorem rebase_without_root_unfold_build_err (backend : GitBackend)
    (branches : List String) (base_branch : String) (timeout fuel : Nat)
    (debug_tree : Bool) (e : BuildErr)
    (hb : build_tree backend (backend.common_ancestor branches) branches [] = .error e) :
    rebase_without_root backend branches base_branch timeout fuel debug_tree =
      ([.common_ancestor branches] ++
        build_tree_calls backend (backend.common_ancestor branches) branches [],
        some (.buildErr e)) := by
  simp only [rebase_without_root, hb]

theorem rebase_without_root_unfold_verify_err (backend : GitBackend)
    (branches : List String) (base_branch : String) (timeout fuel : Nat)
    (debug_tree : Bool) (lt : Commit) (m : String)
    (hb : build_tree backend (backend.common_ancestor branches) branches [] = .ok lt)
    (hv : verify_tree lt = .error m) :
    rebase_without_root backend branches base_branch timeout fuel debug_tree =
      ([.common_ancestor branches] ++
        build_tree_calls backend (backend.common_ancestor branches) branches [],
        some (.verifyErr m)) := by
  simp only [rebase_without_root, hb, hv]

theorem rebase_without_root_unfold_dbg_err (backend : GitBackend)
    (branches : List String) (base_branch : String) (timeout fuel : Nat) (lt : Commit)
    (e : BuildErr)
    (hb : build_tree backend (backend.common_ancestor branches) branches [] = .ok lt)
    (hv : verify_tree lt = .ok ())
    (hb2 : build_tree backend (backend.common_ancestor (branches ++ [base_branch]))
      (branches ++ [base_branch]) [] = .error e) :
    rebase_without_root backend branches base_branch timeout fuel true =
      ([.common_ancestor branches] ++
        build_tree_calls backend (backend.common_ancestor branches) branches [] ++
        (.common_ancestor (branches ++ [base_branch]) ::
          build_tree_calls backend (backend.common_ancestor (branches ++ [base_branch]))
            (branches ++ [base_branch]) []),
        some (.buildErr e)) := by
  simp only [rebase_without_root, hb, hv, hb2, if_true, Except.map]

theorem rebase_without_root_unfold_replay_err_nodebug (backend : GitBackend)
    (branches : List String) (base_branch : String) (timeout fuel : Nat) (lt : Commit)
    (e : ReplayErr)
    (hb : build_tree backend (backend.common_ancestor branches) branches [] = .ok lt)
    (hv : verify_tree lt = .ok ())
    (hr : (rebase_segments backend timeout fuel lt.full_hash base_branch
      (bfs_segments lt) ⟨[], 0⟩).2.2 = some e) :
    rebase_without_root backend branches base_branch timeout fuel false =
      ([.common_ancestor branches] ++
        build_tree_calls backend (backend.common_ancestor branches) branches [] ++
        (rebase_segments backend timeout fuel lt.full_hash base_branch
          (bfs_segments lt) ⟨[], 0⟩).1,
        some (.replayErr e)) := by
  simp only [rebase_without_root, hb, hv, hr, Bool.false_eq_true, if_false,
    List.append_nil]

theorem rebase_without_root_unfold_replay_err_debug (backend : GitBackend)
    (branches : List String) (base_branch : String) (timeout fuel : Nat)
    (lt dbgt : Commit) (e : ReplayErr)
    (hb : build_tree backend (backend.common_ancestor branches) branches [] = .ok lt)
    (hv : verify_tree lt = .ok ())
    (hb2 : build_tree backend (backend.common_ancestor (branches ++ [base_branch]))
      (branches ++ [base_branch]) [] = .ok dbgt)
    (hr : (rebase_segments backend timeout fuel lt.full_hash base_branch
      (bfs_segments lt) ⟨[], 0⟩).2.2 = some e) :
    rebase_without_root backend branches base_branch timeout fuel true =
      ([.common_ancestor branches] ++
        build_tree_calls backend (backend.common_ancestor branches) branches [] ++
        (.common_ancestor (branches ++ [base_branch]) ::
          build_tree_calls backend (backend.common_ancestor (branches ++ [base_branch]))
            (branches ++ [base_branch]) []) ++
        (rebase_segments backend timeout fuel lt.full_hash base_branch
          (bfs_segments lt) ⟨[], 0⟩).1,
        some (.replayErr e)) := by
  simp only [rebase_without_root, hb, hv, hb2, hr, if_true, Except.map]

theorem rebase_without_root_unfold_ok_nodebug (backend : GitBackend)
    (branches : List String) (base_branch : String) (timeout fuel : Nat) (lt : Commit)
    (hb : build_tree backend (backend.common_ancestor branches) branches [] = .ok lt)
    (hv : verify_tree lt = .ok ())
    (hr : (rebase_segments backend timeout fuel lt.full_hash base_branch
      (bfs_segments lt) ⟨[], 0⟩).2.2 = none) :
    rebase_without_root backend branches base_branch timeout fuel false =
      ([.common_ancestor branches] ++
        build_tree_calls backend (backend.common_ancestor branches) branches [] ++
        ((rebase_segments backend timeout fuel lt.full_hash base_branch
            (bfs_segments lt) ⟨[], 0⟩).1 ++
          finishRenames (rebase_segments backend timeout fuel lt.full_hash base_branch
            (bfs_segments lt) ⟨[], 0⟩).2.1),
        none) := by
  simp only [rebase_without_root, hb, hv, hr, Bool.false_eq_true, if_false,
    List.append_nil]

theorem rebase_without_root_unfold_ok_debug (backend : GitBackend)
    (branches : List String) (base_branch : String) (timeout fuel : Nat)
    (lt dbgt : Commit)
    (hb : build_tree backend (backend.common_ancestor branches) branches [] = .ok lt)
    (hv : verify_tree lt = .ok ())
    (hb2 : build_tree backend (backend.common_ancestor (branches ++ [base_branch]))
      (branches ++ [base_branch]) [] = .ok dbgt)
    (hr : (rebase_segments backend timeout fuel lt.full_hash base_branch
      (bfs_segments lt) ⟨[], 0⟩).2.2 = none) :
    rebase_without_root backend branches base_branch timeout fuel true =
      ([.common_ancestor branches] ++
        build_tree_calls backend (backend.common_ancestor branches) branches [] ++
        (.common_ancestor (branches ++ [base_branch]) ::
          build_tree_calls backend (backend.common_ancestor (branches ++ [base_branch]))
            (branches ++ [base_branch]) []) ++
        ((rebase_segments backend timeout fuel lt.full_hash base_branch
            (bfs_segments lt) ⟨[], 0⟩).1 ++
          finishRenames (rebase_segments backend timeout fuel lt.full_hash base_branch
            (bfs_segments lt) ⟨[], 0⟩).2.1) ++
        (.common_ancestor (branches ++ [base_branch]) ::
          build_tree_calls backend (backend.common_ancestor (branches ++ [base_branch]))
            (branches ++ [base_branch]) []),
        none) := by
  simp only [rebase_without_root, hb, hv, hb2, hr, if_true, Except.map]

/-- C5: in `update_local_struct` and in both rebase variants the
recorded backend trace splits into a replay phase with no delete and
no rename (holding, when the run succeeds, a branch-creation call for
every entry of the name mapping), then all the `git_delete_branch`
calls, then all the `git_rename_branch` calls, then (for the rebase
flows' debug rebuild) only non-mutating calls: every deletion of an
original branch name happens only after the segment-replay loop has
finished — after every temporary replacement branch in the name
mapping has been created — and all deletes complete before any rename
begins. -/
theorem deletes_after_replay_before_renames :
    (∀ (backend : GitBackend) (required_tree : Commit) (timeout fuel : Nat),
      ∃ t1 t2 t3 : List GitCall,
        (update_local_struct backend required_tree timeout fuel).1 = t1 ++ t2 ++ t3 ∧
        (∀ c ∈ t1, c.isDelete = false ∧ c.isRename = false) ∧
        (∀ c ∈ t2, c.isDelete = true) ∧
        (∀ c ∈ t3, c.isRename = true) ∧
        ((update_local_struct backend required_tree timeout fuel).2 = none →
          ∀ p ∈ (update_segments backend timeout fuel (bfs_segments required_tree)
              ⟨[], 0⟩).2.1.old_to_new_name_map,
            ∃ sr, GitCall.branch p.2 sr ∈ t1)) ∧
    (∀ (backend : GitBackend) (branches : List String) (base_branch : String)
        (timeout fuel : Nat) (debug_tree : Bool),
      ∃ t1 t2 t3 t4 : List GitCall,
        (rebase_with_root backend branches base_branch timeout fuel debug_tree).1 =
          t1 ++ t2 ++ t3 ++ t4 ∧
        (∀ c ∈ t1, c.isDelete = false ∧ c.isRename = false) ∧
        (∀ c ∈ t2, c.isDelete = true) ∧
        (∀ c ∈ t3, c.isRename = true) ∧
        (∀ c ∈ t4, c.isMutation = false) ∧
        (∀ lt : Commit,
          build_tree backend (backend.common_ancestor (branches ++ [base_branch]))
            branches [] = .ok lt →
          (rebase_with_root backend branches base_branch timeout fuel debug_tree).2 =
            none →
          ∀ p ∈ (rebase_segments backend timeout fuel lt.full_hash base_branch
              (bfs_segments lt) ⟨[], 0⟩).2.1.old_to_new_name_map,
            ∃ sr, GitCall.branch p.2 sr ∈ t1)) ∧
    (∀ (backend : GitBackend) (branches : List String) (base_branch : String)
        (timeout fuel : Nat) (debug_tree : Bool),
      ∃ t1 t2 t3 t4 : List GitCall,
        (rebase_without_root backend branches base_branch timeout fuel debug_tree).1 =
          t1 ++ t2 ++ t3 ++ t4 ∧
        (∀ c ∈ t1, c.isDelete = false ∧ c.isRename = false) ∧
        (∀ c ∈ t2, c.isDelete = true) ∧
        (∀ c ∈ t3, c.isRename = true) ∧
        (∀ c ∈ t4, c.isMutation = false) ∧
        (∀ lt : Commit,
          build_tree backend (backend.common_ancestor branches) branches [] = .ok lt →
          (rebase_without_root backend branches base_branch timeout fuel debug_tree).2 =
            none →
          ∀ p ∈ (rebase_segments backend timeout fuel lt.full_hash base_branch
              (bfs_segments lt) ⟨[], 0⟩).2.1.old_to_new_name_map,
            ∃ sr, GitCall.branch p.2 sr ∈ t1)) := by
  refine ⟨?_, ?_, ?_⟩
  · -- update_local_struct
    intro backend required_tree timeout fuel
    cases herr : (update_segments backend timeout fuel (bfs_segments required_tree)
        ⟨[], 0⟩).2.2 with
    | some e =>
      rw [update_local_struct_err backend required_tree timeout fuel e herr]
      refine ⟨(update_segments backend timeout fuel (bfs_segments required_tree)
        ⟨[], 0⟩).1, [], [], by simp, ?_, by simp, by simp, ?_⟩
      · exact (update_segments_trace backend timeout fuel _ _).1
      · intro h
        simp at h
    | none =>
      rw [update_local_struct_ok backend required_tree timeout fuel herr]
      refine ⟨(update_segments backend timeout fuel (bfs_segments required_tree)
          ⟨[], 0⟩).1,
        (update_segments backend timeout fuel (bfs_segments required_tree)
          ⟨[], 0⟩).2.1.old_to_new_name_map.map (fun p => GitCall.delete_branch p.1),
        (update_segments backend timeout fuel (bfs_segments required_tree)
          ⟨[], 0⟩).2.1.old_to_new_name_map.map (fun p => GitCall.rename_branch p.2 p.1),
        ?_, ?_, ?_, ?_, ?_⟩
      · show _ ++ finishRenames _ = _
        rw [finishRenames, ← List.append_assoc]
      · exact (update_segments_trace backend timeout fuel _ _).1
      · exact finishRenames_deletes _
      · exact finishRenames_renames _
      · intro _ p hp
        rcases (update_segments_trace backend timeout fuel _ _).2 herr p hp with h | ⟨sr, hsr⟩
        · simp at h
        · exact ⟨sr, hsr⟩
  · -- rebase_with_root
    intro backend branches base_branch timeout fuel debug_tree
    cases hb : build_tree backend (backend.common_ancestor (branches ++ [base_branch]))
        branches [] with
    | error e =>
      rw [rebase_with_root_unfold_build_err backend branches base_branch timeout fuel
        debug_tree e hb]
      refine ⟨[.common_ancestor (branches ++ [base_branch])] ++
        build_tree_calls backend (backend.common_ancestor (branches ++ [base_branch]))
          branches [], [], [], [], by simp, ?_, by simp, by simp, by simp, ?_⟩
      · intro c hc
        rcases List.mem_append.mp hc with h1 | h2
        · have : c = GitCall.common_ancestor (branches ++ [base_branch]) := by simpa using h1
          subst this
          exact ⟨rfl, rfl⟩
        · exact isMutation_false_phases c (build_tree_calls_readonly _ _ _ _ c h2)
      · intro lt hb' _
        exact absurd hb' (by simp)
    | ok lt =>
      cases hv : verify_tree lt with
      | error m =>
        rw [rebase_with_root_unfold_verify_err backend branches base_branch timeout fuel
          debug_tree lt m hb hv]
        refine ⟨[.common_ancestor (branches ++ [base_branch])] ++
          build_tree_calls backend (backend.common_ancestor (branches ++ [base_branch]))
            branches [], [], [], [], by simp, ?_, by simp, by simp, by simp, ?_⟩
        · intro c hc
          rcases List.mem_append.mp hc with h1 | h2
          · have : c = GitCall.common_ancestor (branches ++ [base_branch]) := by
              simpa using h1
            subst this
            exact ⟨rfl, rfl⟩
          · exact isMutation_false_phases c (build_tree_calls_readonly _ _ _ _ c h2)
        · intro lt' hb' herr'
          exact absurd herr' (by simp)
      | ok u =>
        cases u
        cases hr : (rebase_segments backend timeout fuel lt.full_hash base_branch
            (bfs_segments lt) ⟨[], 0⟩).2.2 with
        | some e =>
          rw [rebase_with_root_unfold_replay_err backend branches base_branch timeout fuel
            debug_tree lt e hb hv hr]
          refine ⟨[.common_ancestor (branches ++ [base_branch])] ++
            build_tree_calls backend (backend.common_ancestor (branches ++ [base_branch]))
              branches [] ++
            (rebase_segments backend timeout fuel lt.full_hash base_branch
              (bfs_segments lt) ⟨[], 0⟩).1, [], [], [],
            by simp, ?_, by simp, by simp, by simp, ?_⟩
          · intro c hc
            rcases List.mem_append.mp hc with h1 | h2
            · rcases List.mem_append.mp h1 with h3 | h4
              · have : c = GitCall.common_ancestor (branches ++ [base_branch]) := by
                  simpa using h3
                subst this
                exact ⟨rfl, rfl⟩
              · exact isMutation_false_phases c (build_tree_calls_readonly _ _ _ _ c h4)
            · exact (rebase_segments_trace backend timeout fuel lt.full_hash base_branch
                _ _).1 c h2
          · intro lt' hb' herr'
            exact absurd herr' (by simp)
        | none =>
          cases debug_tree with
          | false =>
            rw [rebase_with_root_unfold_ok_nodebug backend branches base_branch timeout
              fuel lt hb hv hr]
            refine ⟨[.common_ancestor (branches ++ [base_branch])] ++
              build_tree_calls backend
                (backend.common_ancestor (branches ++ [base_branch])) branches [] ++
              (rebase_segments backend timeout fuel lt.full_hash base_branch
                (bfs_segments lt) ⟨[], 0⟩).1,
              (rebase_segments backend timeout fuel lt.full_hash base_branch
                (bfs_segments lt)
                ⟨[], 0⟩).2.1.old_to_new_name_map.map (fun p => GitCall.delete_branch p.1),
              (rebase_segments backend timeout fuel lt.full_hash base_branch
                (bfs_segments lt)
                ⟨[], 0⟩).2.1.old_to_new_name_map.map
                  (fun p => GitCall.rename_branch p.2 p.1),
              [], ?_, ?_, ?_, ?_, by simp, ?_⟩
            · rw [finishRenames]
              simp [List.append_assoc]
            · intro c hc
              rcases List.mem_append.mp hc with h1 | h2
              · rcases List.mem_append.mp h1 with h3 | h4
                · have : c = GitCall.common_ancestor (branches ++ [base_branch]) := by
                    simpa using h3
                  subst this
                  exact ⟨rfl, rfl⟩
                · exact isMutation_false_phases c (build_tree_calls_readonly _ _ _ _ c h4)
              · exact (rebase_segments_trace backend timeout fuel lt.full_hash base_branch
                  _ _).1 c h2
            · exact finishRenames_deletes _
            · exact finishRenames_renames _
            · intro lt' hb' _ p hp
              have hlt : lt' = lt := by
                injection hb' with h
                exact h.symm
              rw [hlt] at hp
              rcases (rebase_segments_trace backend timeout fuel lt.full_hash base_branch
                  _ _).2 hr p hp with h | ⟨sr, hsr⟩
              · exact absurd h (List.not_mem_nil p)
              · exact ⟨sr, List.mem_append_right _ hsr⟩
          | true =>
            rw [rebase_with_root_unfold_ok_debug backend branches base_branch timeout
              fuel lt hb hv hr]
            refine ⟨[.common_ancestor (branches ++ [base_branch])] ++
              build_tree_calls backend
                (backend.common_ancestor (branches ++ [base_branch])) branches [] ++
              (rebase_segments backend timeout fuel lt.full_hash base_branch
                (bfs_segments lt) ⟨[], 0⟩).1,
              (rebase_segments backend timeout fuel lt.full_hash base_branch
                (bfs_segments lt)
                ⟨[], 0⟩).2.1.old_to_new_name_map.map (fun p => GitCall.delete_branch p.1),
              (rebase_segments backend timeout fuel lt.full_hash base_branch
                (bfs_segments lt)
                ⟨[], 0⟩).2.1.old_to_new_name_map.map
                  (fun p => GitCall.rename_branch p.2 p.1),
              build_tree_calls backend
                (backend.common_ancestor (branches ++ [base_branch])) branches [],
              ?_, ?_, ?_, ?_, ?_, ?_⟩
            · rw [finishRenames]
              simp [List.append_assoc]
            · intro c hc
              rcases List.mem_append.mp hc with h1 | h2
              · rcases List.mem_append.mp h1 with h3 | h4
                · have : c = GitCall.common_ancestor (branches ++ [base_branch]) := by
                    simpa using h3
                  subst this
                  exact ⟨rfl, rfl⟩
                · exact isMutation_false_phases c (build_tree_calls_readonly _ _ _ _ c h4)
              · exact (rebase_segments_trace backend timeout fuel lt.full_hash base_branch
                  _ _).1 c h2
            · exact finishRenames_deletes _
            · exact finishRenames_renames _
            · exact build_tree_calls_readonly _ _ _ _
            · intro lt' hb' _ p hp
              have hlt : lt' = lt := by
                injection hb' with h
                exact h.symm
              rw [hlt] at hp
              rcases (rebase_segments_trace backend timeout fuel lt.full_hash base_branch
                  _ _).2 hr p hp with h | ⟨sr, hsr⟩
              · exact absurd h (List.not_mem_nil p)
              · exact ⟨sr, List.mem_append_right _ hsr⟩
  · -- rebase_without_root
    intro backend branches base_branch timeout fuel debug_tree
    cases hb : build_tree backend (backend.common_ancestor branches) branches [] with
    | error e =>
      rw [rebase_without_root_unfold_build_err backend branches base_branch timeout fuel
        debug_tree e hb]
      refine ⟨[.common_ancestor branches] ++
        build_tree_calls backend (backend.common_ancestor branches) branches [],
        [], [], [], by simp, ?_, by simp, by simp, by simp, ?_⟩
      · intro c hc
        rcases List.mem_append.mp hc with h1 | h2
        · have : c = GitCall.common_ancestor branches := by simpa using h1
          subst this
          exact ⟨rfl, rfl⟩
        · exact isMutation_false_phases c (build_tree_calls_readonly _ _ _ _ c h2)
      · intro lt hb' _
        exact absurd hb' (by simp)
    | ok lt =>
      cases hv : verify_tree lt with
      | error m =>
        rw [rebase_without_root_unfold_verify_err backend branches base_branch timeout
          fuel debug_tree lt m hb hv]
        refine ⟨[.common_ancestor branches] ++
          build_tree_calls backend (backend.common_ancestor branches) branches [],
          [], [], [], by simp, ?_, by simp, by simp, by simp, ?_⟩
        · intro c hc
          rcases List.mem_append.mp hc with h1 | h2
          · have : c = GitCall.common_ancestor branches := by simpa using h1
            subst this
            exact ⟨rfl, rfl⟩
          · exact isMutation_false_phases c (build_tree_calls_readonly _ _ _ _ c h2)
        · intro lt' hb' herr'
          exact absurd herr' (by simp)
      | ok u =>
        cases u
        cases debug_tree with
        | false =>
          cases hr : (rebase_segments backend timeout fuel lt.full_hash base_branch
              (bfs_segments lt) ⟨[], 0⟩).2.2 with
          | some e =>
            rw [rebase_without_root_unfold_replay_err_nodebug backend branches base_branch
              timeout fuel lt e hb hv hr]
            refine ⟨[.common_ancestor branches] ++
              build_tree_calls backend (backend.common_ancestor branches) branches [] ++
              (rebase_segments backend timeout fuel lt.full_hash base_branch
                (bfs_segments lt) ⟨[], 0⟩).1, [], [], [],
              by simp, ?_, by simp, by simp, by simp, ?_⟩
            · intro c hc
              rcases List.mem_append.mp hc with h1 | h2
              · rcases List.mem_append.mp h1 with h3 | h4
                · have : c = GitCall.common_ancestor branches := by simpa using h3
                  subst this
                  exact ⟨rfl, rfl⟩
                · exact isMutation_false_phases c (build_tree_calls_readonly _ _ _ _ c h4)
              · exact (rebase_segments_trace backend timeout fuel lt.full_hash base_branch
                  _ _).1 c h2
            · intro lt' hb' herr'
              exact absurd herr' (by simp)
          | none =>
            rw [rebase_without_root_unfold_ok_nodebug backend branches base_branch timeout
              fuel lt hb hv hr]
            refine ⟨[.common_ancestor branches] ++
              build_tree_calls backend (backend.common_ancestor branches) branches [] ++
              (rebase_segments backend timeout fuel lt.full_hash base_branch
                (bfs_segments lt) ⟨[], 0⟩).1,
              (rebase_segments backend timeout fuel lt.full_hash base_branch
                (bfs_segments lt)
                ⟨[], 0⟩).2.1.old_to_new_name_map.map (fun p => GitCall.delete_branch p.1),
              (rebase_segments backend timeout fuel lt.full_hash base_branch
                (bfs_segments lt)
                ⟨[], 0⟩).2.1.old_to_new_name_map.map
                  (fun p => GitCall.rename_branch p.2 p.1),
              [], ?_, ?_, ?_, ?_, by simp, ?_⟩
            · rw [finishRenames]
              simp [List.append_assoc]
            · intro c hc
              rcases List.mem_append.mp hc with h1 | h2
              · rcases List.mem_append.mp h1 with h3 | h4
                · have : c = GitCall.common_ancestor branches := by simpa using h3
                  subst this
                  exact ⟨rfl, rfl⟩
                · exact isMutation_false_phases c (build_tree_calls_readonly _ _ _ _ c h4)
              · exact (rebase_segments_trace backend timeout fuel lt.full_hash base_branch
                  _ _).1 c h2
            · exact finishRenames_deletes _
            · exact finishRenames_renames _
            · intro lt' hb' _ p hp
              have hlt : lt' = lt := by
                injection hb' with h
                exact h.symm
              rw [hlt] at hp
              rcases (rebase_segments_trace backend timeout fuel lt.full_hash base_branch
                  _ _).2 hr p hp with h | ⟨sr, hsr⟩
              · exact absurd h (List.not_mem_nil p)
              · exact ⟨sr, List.mem_append_right _ hsr⟩
        | true =>
          cases hb2 : build_tree backend
              (backend.common_ancestor (branches ++ [base_branch]))
              (branches ++ [base_branch]) [] with
          | error e =>
            rw [rebase_without_root_unfold_dbg_err backend branches base_branch timeout
              fuel lt e hb hv hb2]
            refine ⟨[.common_ancestor branches] ++
              build_tree_calls backend (backend.common_ancestor branches) branches [] ++
              (.common_ancestor (branches ++ [base_branch]) ::
                build_tree_calls backend
                  (backend.common_ancestor (branches ++ [base_branch]))
                  (branches ++ [base_branch]) []), [], [], [],
              by simp, ?_, by simp, by simp, by simp, ?_⟩
            · intro c hc
              rcases List.mem_append.mp hc with h1 | h2
              · rcases List.mem_append.mp h1 with h3 | h4
                · have : c = GitCall.common_ancestor branches := by simpa using h3
                  subst this
                  exact ⟨rfl, rfl⟩
                · exact isMutation_false_phases c (build_tree_calls_readonly _ _ _ _ c h4)
              · rcases List.mem_cons.mp h2 with rfl | h5
                · exact ⟨rfl, rfl⟩
                · exact isMutation_false_phases c (build_tree_calls_readonly _ _ _ _ c h5)
            · intro lt' hb' herr'
              exact absurd herr' (by simp)
          | ok dbgt =>
            cases hr : (rebase_segments backend timeout fuel lt.full_hash base_branch
                (bfs_segments lt) ⟨[], 0⟩).2.2 with
            | some e =>
              rw [rebase_without_root_unfold_replay_err_debug backend branches base_branch
                timeout fuel lt dbgt e hb hv hb2 hr]
              refine ⟨[.common_ancestor branches] ++
                build_tree_calls backend (backend.common_ancestor branches) branches [] ++
                (.common_ancestor (branches ++ [base_branch]) ::
                  build_tree_calls backend
                    (backend.common_ancestor (branches ++ [base_branch]))
                    (branches ++ [base_branch]) []) ++
                (rebase_segments backend timeout fuel lt.full_hash base_branch
                  (bfs_segments lt) ⟨[], 0⟩).1, [], [], [],
                by simp, ?_, by simp, by simp, by simp, ?_⟩
              · intro c hc
                rcases List.mem_append.mp hc with h1 | h2
                · rcases List.mem_append.mp h1 with h3 | h4
                  · rcases List.mem_append.mp h3 with h5 | h6
                    · have : c = GitCall.common_ancestor branches := by simpa using h5
                      subst this
                      exact ⟨rfl, rfl⟩
                    · exact isMutation_false_phases c
                        (build_tree_calls_readonly _ _ _ _ c h6)
                  · rcases List.mem_cons.mp h4 with rfl | h7
                    · exact ⟨rfl, rfl⟩
                    · exact isMutation_false_phases c
                        (build_tree_calls_readonly _ _ _ _ c h7)
                · exact (rebase_segments_trace backend timeout fuel lt.full_hash
                    base_branch _ _).1 c h2
              · intro lt' hb' herr'
                exact absurd herr' (by simp)
            | none =>
              rw [rebase_without_root_unfold_ok_debug backend branches base_branch timeout
                fuel lt dbgt hb hv hb2 hr]
              refine ⟨[.common_ancestor branches] ++
                build_tree_calls backend (backend.common_ancestor branches) branches [] ++
                (.common_ancestor (branches ++ [base_branch]) ::
                  build_tree_calls backend
                    (backend.common_ancestor (branches ++ [base_branch]))
                    (branches ++ [base_branch]) []) ++
                (rebase_segments backend timeout fuel lt.full_hash base_branch
                  (bfs_segments lt) ⟨[], 0⟩).1,
                (rebase_segments backend timeout fuel lt.full_hash base_branch
                  (bfs_segments lt)
                  ⟨[], 0⟩).2.1.old_to_new_name_map.map
                    (fun p => GitCall.delete_branch p.1),
                (rebase_segments backend timeout fuel lt.full_hash base_branch
                  (bfs_segments lt)
                  ⟨[], 0⟩).2.1.old_to_new_name_map.map
                    (fun p => GitCall.rename_branch p.2 p.1),
                (.common_ancestor (branches ++ [base_branch]) ::
                  build_tree_calls backend
                    (backend.common_ancestor (branches ++ [base_branch]))
                    (branches ++ [base_branch]) []),
                ?_, ?_, ?_, ?_, ?_, ?_⟩
              · rw [finishRenames]
                simp [List.append_assoc]
              · intro c hc
                rcases List.mem_append.mp hc with h1 | h2
                · rcases List.mem_append.mp h1 with h3 | h4
                  · rcases List.mem_append.mp h3 with h5 | h6
                    · have : c = GitCall.common_ancestor branches := by simpa using h5
                      subst this
                      exact ⟨rfl, rfl⟩
                    · exact isMutation_false_phases c
                        (build_tree_calls_readonly _ _ _ _ c h6)
                  · rcases List.mem_cons.mp h4 with rfl | h7
                    · exact ⟨rfl, rfl⟩
                    · exact isMutation_false_phases c
                        (build_tree_calls_readonly _ _ _ _ c h7)
                · exact (rebase_segments_trace backend timeout fuel lt.full_hash
                    base_branch _ _).1 c h2
              · exact finishRenames_deletes _
              · exact finishRenames_renames _
              · intro c hc
                rcases List.mem_cons.mp hc with rfl | h5
                · rfl
                · exact build_tree_calls_readonly _ _ _ _ c h5
              · intro lt' hb' _ p hp
                have hlt : lt' = lt := by
                  injection hb' with h
                  exact h.symm
                rw [hlt] at hp
                rcases (rebase_segments_trace backend timeout fuel lt.full_hash
                    base_branch _ _).2 hr p hp with h | ⟨sr, hsr⟩
                · exact absurd h (List.not_mem_nil p)
                · exact ⟨sr, List.mem_append_right _ hsr⟩

theorem insertSorted_perm (s : String) (l : List String) :
    List.Perm (insertSorted s l) (s :: l) := by
  induction l with
  | nil => simp [insertSorted]
  | cons t ts ih =>
    rw [insertSorted]
    split
    · exact List.Perm.refl _
    · exact (List.Perm.cons t ih).trans (List.Perm.swap s t ts)

/-- `sortStrings` permutes its input (so the multi-label error message
mentions exactly the commit's labels). -/
theorem sortStrings_perm (l : List String) : List.Perm (sortStrings l) l := by
  induction l with
  | nil => simp [sortStrings]
  | cons s ss ih =>
    rw [sortStrings]
    exact (insertSorted_perm s (sortStrings ss)).trans (List.Perm.cons s ih)

theorem insertSorted_sorted (s : String) (l : List String)
    (h : l.Sorted (· ≤ ·)) : (insertSorted s l).Sorted (· ≤ ·) := by
  induction l with
  | nil => simp [insertSorted]
  | cons t ts ih =>
    rw [insertSorted]
    rw [List.sorted_cons] at h
    obtain ⟨ht, hts⟩ := h
    split
    · rename_i hst
      rw [List.sorted_cons]
      refine ⟨?_, ?_⟩
      · intro b hb
        rcases List.mem_cons.mp hb with rfl | hb'
        · exact hst
        · exact le_trans hst (ht b hb')
      · rw [List.sorted_cons]
        exact ⟨ht, hts⟩
    · rename_i hst
      rw [List.sorted_cons]
      refine ⟨?_, ih hts⟩
      intro b hb
      have hb2 := (insertSorted_perm s ts).mem_iff.mp hb
      rcases List.mem_cons.mp hb2 with rfl | hb'
      · exact le_of_not_le hst
      · exact ht b hb'

/-- `sortStrings` sorts (so the multi-label error message lists the
labels in sorted order, as Python's `sorted` does). -/
theorem sortStrings_sorted (l : List String) : (sortStrings l).Sorted (· ≤ ·) := by
  induction l with
  | nil => simp [sortStrings]
  | cons s ss ih =>
    rw [sortStrings]
    exact insertSorted_sorted s (sortStrings ss) ih

/-- Witness for C5: the decomposition applied at a concrete backend
and tree. -/
theorem deletes_after_replay_before_renames_witness :
    ∃ t1 t2 t3 : List GitCall,
      (update_local_struct okBackend twoLabelChain 10 10).1 = t1 ++ t2 ++ t3 ∧
      (∀ c ∈ t1, c.isDelete = false ∧ c.isRename = false) ∧
      (∀ c ∈ t2, c.isDelete = true) ∧
      (∀ c ∈ t3, c.isRename = true) ∧
      ((update_local_struct okBackend twoLabelChain 10 10).2 = none →
        ∀ p ∈ (update_segments okBackend 10 10 (bfs_segments twoLabelChain)
            ⟨[], 0⟩).2.1.old_to_new_name_map,
          ∃ sr, GitCall.branch p.2 sr ∈ t1) :=
  deletes_after_replay_before_renames.1 okBackend twoLabelChain 10 10

end GitTree

